import Mathlib

/-
Shallow embedding of the RedisStore class (src/index.ts): an indexed record
store over a key-value/JSON backend with ordered-set secondary indexes.

Modelling choices, all derived from the source:
- JS field values are modelled by `Val` (strings and natural-number
  timestamps); a JS object/document is a partial map `String → Option Val`.
- The backend state is a pair of partial maps: JSON documents by key and
  ordered sets (zsets) by key.  A zset is an association list of
  (member, score) with at most one entry per member, as in Redis.
- Each store operation additionally returns the list of backend commands it
  dispatched (`Op`), in dispatch order, so that statements about which I/O a
  call issues (and in which order) can be made.
- `moment().valueOf()` and `uuid()` are passed in as explicit `now`/`genId`
  arguments.  TTL expiry (`redis.expire`) only appears in the trace: the
  model does not age keys.
- JSON.SET with path `$.deletedAt` on an absent document is modelled as a
  no-op on the document map (the backend interface in the spec does not give
  it a creating behaviour).
-/

namespace RedisStore

inductive Val where
  | str (s : String)
  | num (n : Nat)
deriving DecidableEq

abbrev Doc := String → Option Val

/-- JS truthiness of a possibly-absent field value: `undefined`, `""` and `0`
are falsy, everything else truthy. -/
def truthyVal : Option Val → Bool
  | none => false
  | some (Val.str s) => s ≠ ""
  | some (Val.num n) => n ≠ 0

/-- JS template-literal interpolation of a possibly-absent value, as in
the backtick template used by `valueKey` and `lookupKeys`. -/
def vStr : Option Val → String
  | none => "undefined"
  | some (Val.str s) => s
  | some (Val.num n) => toString n

/-- Numeric reading of a field (used for zadd scores).  Non-numeric scores
never arise in the claims' scope. -/
def vNum : Option Val → Nat
  | some (Val.num n) => n
  | _ => 0

/-- Build a document from an association list (for concrete examples). -/
def docOf (l : List (String × Val)) : Doc := fun k =>
  (l.find? (fun p => p.1 = k)).map (fun p => p.2)

/-! ## Ordered sets (Redis zsets) -/

abbrev ZSet := List (String × Nat)

/-- `ZADD key score member`: replaces the member's score if present. -/
def zadd (z : ZSet) (member : String) (score : Nat) : ZSet :=
  z.filter (fun p => p.1 ≠ member) ++ [(member, score)]

/-- `ZREM key member`. -/
def zrem (z : ZSet) (member : String) : ZSet :=
  z.filter (fun p => p.1 ≠ member)

/-- Score of a member, `none` when not a member. -/
def zscore (z : ZSet) (member : String) : Option Nat :=
  (z.find? (fun p => p.1 = member)).map (fun p => p.2)

/-- Redis `ZRANGE ... REV` ordering: by score descending, ties by member
in reverse lexicographic order. -/
def revCmp (a b : String × Nat) : Prop :=
  b.2 < a.2 ∨ (a.2 = b.2 ∧ b.1 ≤ a.1)

instance : DecidableRel revCmp := fun a b => by
  unfold revCmp; infer_instance

instance : IsTotal (String × Nat) revCmp where
  total a b := by
    rcases Nat.lt_trichotomy a.2 b.2 with h | h | h
    · exact Or.inr (Or.inl h)
    · rcases le_total a.1 b.1 with h' | h'
      · exact Or.inr (Or.inr ⟨h.symm, h'⟩)
      · exact Or.inl (Or.inr ⟨h, h'⟩)
    · exact Or.inl (Or.inl h)

instance : IsTrans (String × Nat) revCmp where
  trans a b c hab hbc := by
    rcases hab with h1 | ⟨h1, h1'⟩
    · rcases hbc with h2 | ⟨h2, h2'⟩
      · exact Or.inl (h2.trans h1)
      · exact Or.inl (h2 ▸ h1)
    · rcases hbc with h2 | ⟨h2, h2'⟩
      · exact Or.inl (h1 ▸ h2)
      · exact Or.inr ⟨h1.trans h2, h2'.trans h1'⟩

/-- One insertion into a JS `Set` (kept as an ordered duplicate-free list). -/
def setIns (a : List String) (x : String) : List String :=
  if x ∈ a then a else a ++ [x]

/-- JS `new Set(array)`: distinct elements, first occurrence order. -/
def dedupFirst (l : List String) : List String :=
  l.foldl setIns []

/-- The rank window `[min, max]` of a list of length `n`; negative indices
count from the end, exactly as in Redis. -/
def rangeWindow (n : Nat) (mn mx : Int) (l : List (String × Nat)) :
    List (String × Nat) :=
  let lo := if mn < 0 then (n : Int) + mn else mn
  let hi := if mx < 0 then (n : Int) + mx else mx
  let lo' := max lo 0
  if hi < lo' then [] else (l.drop lo'.toNat).take (hi - lo' + 1).toNat

/-- `ZRANGE key min max REV`: sort by `revCmp`, then take the rank window. -/
def zrangeRev (z : ZSet) (mn mx : Int) : List String :=
  let sorted := List.insertionSort revCmp z
  (rangeWindow sorted.length mn mx sorted).map (fun p => p.1)

/-! ## Backend state and traces -/

structure RedisState where
  docs : String → Option Doc
  zsets : String → ZSet

def initState : RedisState := ⟨fun _ => none, fun _ => []⟩

def setDoc (st : RedisState) (k : String) (d : Doc) : RedisState :=
  ⟨fun k' => if k' = k then some d else st.docs k', st.zsets⟩

def removeDoc (st : RedisState) (k : String) : RedisState :=
  ⟨fun k' => if k' = k then none else st.docs k', st.zsets⟩

/-- `JSON.SET key $.f v` on an existing document; no-op when absent. -/
def patchField (st : RedisState) (k f : String) (v : Val) : RedisState :=
  ⟨fun k' =>
    if k' = k then (st.docs k).map (fun d => fun f' => if f' = f then some v else d f')
    else st.docs k',
   st.zsets⟩

def setZ (st : RedisState) (k : String) (z : ZSet) : RedisState :=
  ⟨st.docs, fun k' => if k' = k then z else st.zsets k'⟩

/-- A backend command, recorded in dispatch order. -/
inductive Op where
  | readDoc (k : String)
  | readRange (k : String) (mn mx : Int)
  | readScan (cursor : String)
  | writeDoc (k : String)
  | patchDoc (k : String) (field : String)
  | deleteDoc (k : String)
  | expireDoc (k : String) (secs : Nat)
  | zaddOp (k m : String) (score : Nat)
  | zremOp (k m : String)
deriving DecidableEq

def Op.isRead : Op → Bool
  | Op.readDoc _ => true
  | Op.readRange _ _ _ => true
  | Op.readScan _ => true
  | _ => false

/-- Error taxonomy of the spec; the source throws plain strings. -/
inductive StoreErr where
  | invalidArgument (msg : String)
  | notFound (msg : String)
deriving DecidableEq

/-! ## Store configuration -/

/-- Store-level configuration: `key`, index-set name `setKey`
(defaulted to `key ++ "s"` in the constructor) and the
`lookups : lookupName -> fieldName` mapping from `options.lookups`. -/
structure Config where
  key : String
  setKey : String
  lookups : List (String × String)

/-- Per-call options, already merged over the store-level defaults
(the source spreads `{...this.options, ...options}`). -/
structure Opts where
  noLookup : Bool := false
  noIndex : Bool := false
  expire : Option Nat := none
  hardDelete : Bool := false
  deleted : Bool := false

def valueKey (cfg : Config) (id : String) : String := cfg.key ++ ":" ++ id

/-- The document key of record id `i`. -/
def vk (cfg : Config) (i : String) : String := valueKey cfg i

/-- The lookup-index set key for lookup `ln` and field value `v`. -/
def bkt (cfg : Config) (ln v : String) : String :=
  cfg.setKey ++ ":" ++ ln ++ ":" ++ v

/-- `lookupKeys(value, options)`: one `(indexKey, id)` pair per configured
lookup, `[]` when `options.noLookup`.  The id component is the raw
`value.id` (possibly absent). -/
def lookupKeys (cfg : Config) (opts : Opts) (value : Doc) : List (String × Option Val) :=
  if opts.noLookup then []
  else cfg.lookups.map (fun e => (bkt cfg e.1 (vStr (value e.2)), value "id"))

/-! ## Operations -/

/-- `get(id, options)`: `undefined` when the document is absent, or present
but soft-deleted and `deleted` was not requested. -/
def get (cfg : Config) (st : RedisState) (id : String) (deleted : Bool) : Option Doc :=
  match st.docs (valueKey cfg id) with
  | none => none
  | some d => if truthyVal (d "deletedAt") && !deleted then none else some d

/-- `{ id: value.id || uuid(), createdAt: value.createdAt || now, ...value }`. -/
def createdValueOf (value : Doc) (now : Nat) (genId : String) : Doc := fun k =>
  match value k with
  | some v => some v
  | none =>
    if k = "id" then some (Val.str genId)
    else if k = "createdAt" then some (Val.num now) else none

/-- The id under which `create` stores the record. -/
def createId (value : Doc) (genId : String) : String :=
  match value "id" with
  | some v => vStr (some v)
  | none => genId

/-- `create(value, options)`. -/
def create (cfg : Config) (opts : Opts) (st : RedisState) (value : Doc) (now : Nat)
    (genId : String) : Doc × RedisState × List Op :=
  let createdValue := createdValueOf value now genId
  let i := vStr (createdValue "id")
  let dk := valueKey cfg i
  let lks := lookupKeys cfg opts createdValue
  let score := vNum (createdValue "createdAt")
  let st1 := setDoc st dk createdValue
  let st2 :=
    if opts.noIndex then st1
    else setZ st1 cfg.setKey (zadd (st1.zsets cfg.setKey) i score)
  let st3 := lks.foldl (fun s p => setZ s p.1 (zadd (s.zsets p.1) (vStr p.2) score)) st2
  (createdValue, st3,
    Op.writeDoc dk ::
      ((match opts.expire with | some e => [Op.expireDoc dk e] | none => []) ++
        (if opts.noIndex then [] else [Op.zaddOp cfg.setKey i score]) ++
        lks.map (fun p => Op.zaddOp p.1 (vStr p.2) score)))

/-- JS `Map.get` on a pair list built by `new Map(pairs)`; a key set by a
later pair wins, and an absent key is indistinguishable from a key mapped
to `undefined` (both read as `undefined`). -/
def mGet (l : List (String × Option Val)) (k : String) : Option Val :=
  match l.reverse.find? (fun p => p.1 = k) with
  | some p => p.2
  | none => none

/-- `Array.from(new Map(pairs))`: key order of first occurrence, value of
the last occurrence. -/
def mapEntries (l : List (String × Option Val)) : List (String × Option Val) :=
  (dedupFirst (l.map (fun p => p.1))).map (fun k => (k, mGet l k))

/-- `update(value, options)`: throws on falsy `value.id` or missing record;
otherwise replaces the document with `{...value, updatedAt: now}` and
applies the lookup-index diff (removals first, then document write and
additions, as the two `Promise.all` blocks do). -/
def update (cfg : Config) (opts : Opts) (st : RedisState) (value : Doc) (now : Nat) :
    Except StoreErr Doc × RedisState × List Op :=
  if truthyVal (value "id") = false then
    (Except.error (StoreErr.notFound "Cannot update: null id"), st, [])
  else
    let i := vStr (value "id")
    let dk := valueKey cfg i
    match get cfg st i false with
    | none =>
        (Except.error (StoreErr.notFound "Cannot update: does not exist"), st,
          [Op.readDoc dk])
    | some prevValue =>
      let updatedValue : Doc := fun k => if k = "updatedAt" then some (Val.num now) else value k
      let prevLookupKeys := mapEntries (lookupKeys cfg opts prevValue)
      let lookupKeys' := mapEntries (lookupKeys cfg opts updatedValue)
      let lookupsToRemove := prevLookupKeys.filter (fun p => mGet lookupKeys' p.1 ≠ p.2)
      let lookupsToAdd := lookupKeys'.filter (fun p => mGet prevLookupKeys p.1 ≠ p.2)
      let score :=
        if truthyVal (updatedValue "createdAt") then vNum (updatedValue "createdAt")
        else vNum (updatedValue "updatedAt")
      let stR := lookupsToRemove.foldl
        (fun s p => setZ s p.1 (zrem (s.zsets p.1) (vStr p.2))) st
      let stW := setDoc stR dk updatedValue
      let stA := lookupsToAdd.foldl
        (fun s p => setZ s p.1 (zadd (s.zsets p.1) (vStr p.2) score)) stW
      (Except.ok updatedValue, stA,
        Op.readDoc dk ::
          (lookupsToRemove.map (fun p => Op.zremOp p.1 (vStr p.2)) ++
            (Op.writeDoc dk ::
              (match opts.expire with | some e => [Op.expireDoc dk e] | none => []) ++
              lookupsToAdd.map (fun p => Op.zaddOp p.1 (vStr p.2) score))))

/-- `delete(id, options)`: throws on falsy id; reads the record (including
soft-deleted state), then hard-deletes or patches `deletedAt`, removes the
id from the primary index and from the record's lookup buckets. -/
def delete (cfg : Config) (opts : Opts) (st : RedisState) (id : String) (now : Nat) :
    Except StoreErr (Option Doc) × RedisState × List Op :=
  if id = "" then
    (Except.error (StoreErr.invalidArgument "Cannot delete: null id"), st, [])
  else
    let dk := valueKey cfg id
    let value := get cfg st id true
    let lks := match value with
      | some v => lookupKeys cfg opts v
      | none => []
    let st1 := if opts.hardDelete then removeDoc st dk
               else patchField st dk "deletedAt" (Val.num now)
    let st2 := setZ st1 cfg.setKey (zrem (st1.zsets cfg.setKey) id)
    let st3 := lks.foldl (fun s p => setZ s p.1 (zrem (s.zsets p.1) (vStr p.2))) st2
    let ret := value.map (fun v => fun k => if k = "deletedAt" then some (Val.num now) else v k)
    (Except.ok ret, st3,
      Op.readDoc dk ::
        ((if opts.hardDelete then [Op.deleteDoc dk] else [Op.patchDoc dk "deletedAt"]) ++
          (Op.zremOp cfg.setKey id ::
            lks.map (fun p => Op.zremOp p.1 (vStr p.2)))))

/-! ## Queries -/

/-- A query object.  `count`/`offset` are the numeric forms (the source
drops non-numeric ones with a warning); `criteria` are the remaining
key/value pairs in object order; `idList` is `query.id` when an array. -/
structure Query where
  scan : Option String := none
  count : Option Nat := none
  offset : Option Nat := none
  idList : Option (List String) := none
  criteria : List (String × String) := []

/-- `key.substring(key.indexOf(':') + 1)` (whole key when there is no colon). -/
def keySuffix (k : String) : String :=
  if (':' : Char) ∈ k.data then ⟨(k.data.dropWhile (fun c => c ≠ ':')).tail⟩ else k

/-- `query.count || 999`, with the warning on an uncapped scan. -/
def scanCount (q : Query) : Nat :=
  match q.count with
  | some c => if c = 0 then 999 else c
  | none => 999

/-- Accumulation step of the scan loop:
`ret[1].forEach(key => keys.size < count && keys.add(suffix))`. -/
def scanAdd (count : Nat) (acc : List String) (ks : List String) : List String :=
  ks.foldl
    (fun a k =>
      if a.length < count then
        (if keySuffix k ∈ a then a else a ++ [keySuffix k])
      else a)
    acc

/-- The do/while cursor loop of `scan`.  The backend is modelled from the
spec's interface: `matching` is the full list of stored keys matching the
pattern, and at iteration `iter` the cursor call returns the next
`sched iter + 1` of them (at least one while any remain, the finite-progress
guarantee of the backend cursor), with next cursor the sentinel "0" exactly
when the traversal wrapped. -/
def scanLoop (count : Nat) (sched : Nat → Nat) (iter : Nat) (acc rem : List String) :
    List String :=
  let chunk := rem.take (sched iter + 1)
  let rest := rem.drop (sched iter + 1)
  let nextCursor : String := if rest.isEmpty then "0" else "1"
  let acc' := scanAdd count acc chunk
  if h : acc'.length < count ∧ nextCursor ≠ "" ∧ nextCursor ≠ "0" then
    scanLoop count sched (iter + 1) acc' rest
  else acc'
termination_by rem.length
decreasing_by
  rcases h with ⟨-, -, h3⟩
  have he : (rem.drop (sched iter + 1)).isEmpty = false := by
    cases hb : (rem.drop (sched iter + 1)).isEmpty with
    | false => rfl
    | true => exact absurd (show nextCursor = "0" by simp [nextCursor, rest, hb]) h3
  have hpos : 0 < (rem.drop (sched iter + 1)).length := by
    cases hr : rem.drop (sched iter + 1) with
    | nil => rw [hr] at he; simp at he
    | cons a t => simp [hr]
  simp only [List.length_drop] at hpos ⊢
  omega

/-- `scan(query)`: cursor-driven traversal accumulating up to `count`
distinct id suffixes. -/
def scan (cfg : Config) (matching : List String) (sched : Nat → Nat) (q : Query) :
    List String :=
  scanLoop (scanCount q) sched 0 [] matching

/-- The per-criterion reads of `ids`: `queryEntries.map(...)` dispatches a
`zrange` for each truthy pair in order and throws synchronously at the
first falsy one (so earlier reads are already issued). -/
def rangeReads (cfg : Config) (st : RedisState) (mn mx : Int) :
    List (String × String) → Except StoreErr (List (List String)) × List Op
  | [] => (Except.ok [], [])
  | e :: rest =>
    if e.2 = "" then
      (Except.error (StoreErr.invalidArgument "query must have key and value"), [])
    else
      let k := bkt cfg e.1 e.2
      match rangeReads cfg st mn mx rest with
      | (Except.ok sets, tr) =>
          (Except.ok (zrangeRev (st.zsets k) mn mx :: sets), Op.readRange k mn mx :: tr)
      | (Except.error err, tr) =>
          (Except.error err, Op.readRange k mn mx :: tr)

/-- `setOfIds.reduce(...)`: left fold of polyfilled `Set.intersection`,
keeping the iteration order of the current set. -/
def setIntersectFold : List (List String) → List String
  | [] => []
  | s :: rest =>
    rest.foldl (fun prev curr => (dedupFirst curr).filter (fun x => x ∈ prev)) (dedupFirst s)

/-- `ids(query)`: scan, or primary-index range, or intersected lookup
ranges.  Also returns the reads dispatched before any thrown error. -/
def ids (cfg : Config) (st : RedisState) (matching : List String) (sched : Nat → Nat)
    (q : Query) : Except StoreErr (List String) × List Op :=
  if q.scan.getD "" ≠ "" then
    (Except.ok (scan cfg matching sched q), [Op.readScan "0"])
  else
    let mn : Int := (q.offset.getD 0 : Nat)
    let mx : Int := mn + (q.count.getD 0 : Nat) - 1
    let entries := (match q.scan with | some p => [("scan", p)] | none => []) ++ q.criteria
    if entries.isEmpty then
      (Except.ok (dedupFirst (zrangeRev (st.zsets cfg.setKey) mn mx)),
        [Op.readRange cfg.setKey mn mx])
    else
      match rangeReads cfg st mn mx entries with
      | (Except.ok sets, tr) => (Except.ok (setIntersectFold sets), tr)
      | (Except.error err, tr) => (Except.error err, tr)

/-- Chunking worker, structurally recursive on a fuel bound (`l.length`
suffices since each chunk consumes at least one element when `0 < n`). -/
def chunksGo (n : Nat) : Nat → List String → List (List String)
  | _, [] => []
  | 0, l => [l]
  | fuel + 1, l => l.take n :: chunksGo n fuel (l.drop n)

/-- `blockSize`-sized slices of the key list (the `Array.apply` block split;
`blockSize` is 256 in `find`). -/
def chunksOf (n : Nat) (l : List String) : List (List String) :=
  if n = 0 then [] else chunksGo n l.length l

/-- The batch-load stage of `find`: per-block `json.mget` (each block result
flattened, absent keys as nulls), flattened across blocks, then
`.filter(value => value && !value.deletedAt)`. -/
def mgetValues (st : RedisState) (keys : List String) : List Doc :=
  (((chunksOf 256 keys).map (fun ks => ks.map st.docs)).flatten).filterMap
    (fun v =>
      match v with
      | some d => if truthyVal (d "deletedAt") then none else some d
      | none => none)

/-- `find(query)`: explicit id list or resolved ids, then batch load. -/
def find (cfg : Config) (st : RedisState) (matching : List String) (sched : Nat → Nat)
    (q : Query) : Except StoreErr (List Doc) :=
  match q.idList with
  | some idl =>
      Except.ok (mgetValues st ((idl.filter (fun i => i ≠ "")).map (valueKey cfg)))
  | none =>
    match (ids cfg st matching sched q).1 with
    | Except.error e => Except.error e
    | Except.ok is => Except.ok (mgetValues st (is.map (fun i => cfg.key ++ ":" ++ i)))

/-! ## Operation sequences and the lookup-index invariant -/

/-- A lifecycle call on the store (per-call options at their defaults,
in particular `noLookup` is never set). -/
inductive TOp where
  | doCreate (value : Doc) (now : Nat) (genId : String)
  | doUpdate (value : Doc) (now : Nat)
  | doDelete (id : String) (hard : Bool) (now : Nat)

def applyOp (cfg : Config) (st : RedisState) : TOp → RedisState
  | TOp.doCreate v n g => (create cfg {} st v n g).2.1
  | TOp.doUpdate v n => (update cfg {} st v n).2.1
  | TOp.doDelete i hard n => (delete cfg { hardDelete := hard } st i n).2.1

def runOps (cfg : Config) (ops : List TOp) (st : RedisState) : RedisState :=
  ops.foldl (applyOp cfg) st

/-- Well-formedness of a create call: id absent or a string, `createdAt`
absent or a positive timestamp, a positive clock, and a fresh id (no
document, live or soft-deleted, already stored under it). -/
def CreateOk (cfg : Config) (st : RedisState) (value : Doc) (now : Nat) (genId : String) :
    Prop :=
  (value "id" = none ∨ ∃ s, value "id" = some (Val.str s)) ∧
  (value "createdAt" = none ∨ ∃ c, value "createdAt" = some (Val.num c) ∧ 0 < c) ∧
  0 < now ∧
  st.docs (vk cfg (createId value genId)) = none

/-- Well-formedness of an update call: a string id, and the supplied value
carries the stored record's `createdAt` unchanged. -/
def UpdateOk (cfg : Config) (st : RedisState) (value : Doc) : Prop :=
  (∃ s, value "id" = some (Val.str s)) ∧
  (∀ d, st.docs (vk cfg (vStr (value "id"))) = some d → value "createdAt" = d "createdAt")

def OkOp (cfg : Config) (st : RedisState) : TOp → Prop
  | TOp.doCreate v n g => CreateOk cfg st v n g
  | TOp.doUpdate v _ => UpdateOk cfg st v
  | TOp.doDelete _ _ n => 0 < n

def OkRun (cfg : Config) : RedisState → List TOp → Prop
  | _, [] => True
  | st, op :: rest => OkOp cfg st op ∧ OkRun cfg (applyOp cfg st op) rest

/-- Well-formed store configuration: distinct lookup names without colons
(so distinct lookups can never alias the same index-set key). -/
def WFConfig (cfg : Config) : Prop :=
  (cfg.lookups.map (fun p => p.1)).Nodup ∧
  ∀ p ∈ cfg.lookups, (':' : Char) ∉ p.1.data

/-- The lookup-index invariant: every lookup-set member points to a stored
document whose looked-up field matches the set's value component and whose
`createdAt` is the member's score; and every live document is a member of
the bucket for each of its current field values, scored by `createdAt`. -/
structure Inv (cfg : Config) (st : RedisState) : Prop where
  docId : ∀ i d, st.docs (vk cfg i) = some d → d "id" = some (Val.str i)
  docCreated : ∀ i d, st.docs (vk cfg i) = some d →
    ∃ c, d "createdAt" = some (Val.num c) ∧ 0 < c
  memSound : ∀ i ln fld v s, (ln, fld) ∈ cfg.lookups →
    zscore (st.zsets (bkt cfg ln v)) i = some s →
    ∃ d, st.docs (vk cfg i) = some d ∧ vStr (d fld) = v ∧
      d "createdAt" = some (Val.num s)
  memComplete : ∀ i d ln fld, st.docs (vk cfg i) = some d →
    truthyVal (d "deletedAt") = false → (ln, fld) ∈ cfg.lookups →
    zscore (st.zsets (bkt cfg ln (vStr (d fld)))) i = some (vNum (d "createdAt"))

/-- Field of the document stored at backend key `k`. -/
def docField (st : RedisState) (k f : String) : Option Val :=
  (st.docs k).bind (fun d => d f)

/-! ## Concrete instances used by counterexamples and witnesses -/

def cfgT : Config := ⟨"thing", "things", [("user", "createdBy"), ("category", "category")]⟩

def v1 : Doc := docOf [("id", Val.str "r1"), ("createdAt", Val.num 1),
  ("createdBy", Val.str "U1"), ("category", Val.str "C1")]

def v2 : Doc := docOf [("id", Val.str "r2"), ("createdAt", Val.num 2),
  ("createdBy", Val.str "U1"), ("category", Val.str "C2")]

def v3 : Doc := docOf [("id", Val.str "r3"), ("createdAt", Val.num 3),
  ("createdBy", Val.str "U2"), ("category", Val.str "C1")]

def st1 : RedisState := (create cfgT {} initState v1 1 "g1").2.1
def st2 : RedisState := (create cfgT {} st1 v2 2 "g2").2.1
def st3 : RedisState := (create cfgT {} st2 v3 3 "g3").2.1

def cfgC : Config := ⟨"thing", "things", [("cat", "category")]⟩

def wA : Doc := docOf [("id", Val.str "X"), ("createdAt", Val.num 1), ("category", Val.str "A")]
def wB : Doc := docOf [("id", Val.str "X"), ("createdAt", Val.num 2), ("category", Val.str "B")]

/-- Two creates with the same explicit id "X": first in category "A",
then in category "B". -/
def stC : RedisState := (create cfgC {} (create cfgC {} initState wA 1 "g").2.1 wB 2 "g").2.1

def q7 : Query := { criteria := [("user", "U1"), ("category", "")] }

/-- The lookup-index buckets of `a` whose looked-up field value differs
between documents `a` and `b` (the buckets `update` must touch). -/
def changedBuckets (cfg : Config) (a b : Doc) : List String :=
  (cfg.lookups.filter (fun e => vStr (a e.2) ≠ vStr (b e.2))).map
    (fun e => bkt cfg e.1 (vStr (a e.2)))

/-- `min` rank used by `ids` (`offset || 0`). -/
def mnQ (q : Query) : Int := (q.offset.getD 0 : Nat)

/-- `max` rank used by `ids` (`min + (count || 0) - 1`). -/
def mxQ (q : Query) : Int := mnQ q + (q.count.getD 0 : Nat) - 1

/-! ## Basic lemmas about zsets -/

theorem zscore_zadd_self (z : ZSet) (m : String) (s : Nat) :
    zscore (zadd z m s) m = some s := by
  unfold zadd zscore
  induction z with
  | nil => simp
  | cons a z ih =>
    by_cases h : a.1 = m
    · rw [List.filter_cons_of_neg (by simp [h])]
      exact ih
    · rw [List.filter_cons_of_pos (by simp [h]), List.cons_append,
        List.find?_cons_of_neg _ (by simp [h])]
      exact ih

theorem zscore_zadd_ne (z : ZSet) (m m' : String) (s : Nat) (h : m' ≠ m) :
    zscore (zadd z m s) m' = zscore z m' := by
  unfold zadd zscore
  induction z with
  | nil =>
    simp only [List.filter_nil, List.nil_append, List.find?_nil]
    rw [List.find?_cons_of_neg _ (by simp [Ne.symm h]), List.find?_nil]
  | cons a z ih =>
    by_cases ha : a.1 = m
    · rw [List.filter_cons_of_neg (by simp [ha]),
        List.find?_cons_of_neg z (by simp [ha, Ne.symm h])]
      exact ih
    · by_cases ha' : a.1 = m'
      · rw [List.filter_cons_of_pos (by simp [ha]), List.cons_append,
          List.find?_cons_of_pos _ (by simp [ha']),
          List.find?_cons_of_pos z (by simp [ha'])]
      · rw [List.filter_cons_of_pos (by simp [ha]), List.cons_append,
          List.find?_cons_of_neg _ (by simp [ha']),
          List.find?_cons_of_neg z (by simp [ha'])]
        exact ih

theorem zscore_zrem_self (z : ZSet) (m : String) : zscore (zrem z m) m = none := by
  unfold zrem zscore
  induction z with
  | nil => simp
  | cons a z ih =>
    by_cases h : a.1 = m
    · rw [List.filter_cons_of_neg (by simp [h])]
      exact ih
    · rw [List.filter_cons_of_pos (by simp [h]), List.find?_cons_of_neg _ (by simp [h])]
      exact ih

theorem zscore_zrem_ne (z : ZSet) (m m' : String) (h : m' ≠ m) :
    zscore (zrem z m) m' = zscore z m' := by
  unfold zrem zscore
  induction z with
  | nil => simp
  | cons a z ih =>
    by_cases ha : a.1 = m
    · rw [List.filter_cons_of_neg (by simp [ha]),
        List.find?_cons_of_neg z (by simp [ha, Ne.symm h])]
      exact ih
    · by_cases ha' : a.1 = m'
      · rw [List.filter_cons_of_pos (by simp [ha]),
          List.find?_cons_of_pos _ (by simp [ha']),
          List.find?_cons_of_pos z (by simp [ha'])]
      · rw [List.filter_cons_of_pos (by simp [ha]),
          List.find?_cons_of_neg _ (by simp [ha']),
          List.find?_cons_of_neg z (by simp [ha'])]
        exact ih

/-! ## Lemmas about the zset-updating folds -/

theorem foldl_setZ_docs (E : RedisState → String × Option Val → ZSet)
    (ps : List (String × Option Val)) (st : RedisState) :
    (ps.foldl (fun s p => setZ s p.1 (E s p)) st).docs = st.docs := by
  induction ps generalizing st with
  | nil => rfl
  | cons p ps ih => simpa [setZ] using ih (setZ st p.1 (E st p))

theorem foldl_setZ_zsets_nmem (E : RedisState → String × Option Val → ZSet)
    (ps : List (String × Option Val))
    (st : RedisState) (k : String) (hk : k ∉ ps.map (fun p => p.1)) :
    (ps.foldl (fun s p => setZ s p.1 (E s p)) st).zsets k = st.zsets k := by
  induction ps generalizing st with
  | nil => rfl
  | cons p ps ih =>
    simp only [List.map_cons, List.mem_cons, not_or] at hk
    rw [List.foldl_cons, ih _ hk.2]
    simp [setZ, hk.1]

theorem foldl_setZ_zsets_mem (e : ZSet → Option Val → ZSet) (ps : List (String × Option Val))
    (st : RedisState) (k : String) (v : Option Val)
    (hnd : (ps.map (fun p => p.1)).Nodup) (hmem : (k, v) ∈ ps) :
    (ps.foldl (fun s p => setZ s p.1 (e (s.zsets p.1) p.2)) st).zsets k = e (st.zsets k) v := by
  induction ps generalizing st with
  | nil => cases hmem
  | cons p ps ih =>
    simp only [List.map_cons, List.nodup_cons] at hnd
    rcases List.mem_cons.mp hmem with h | h
    · subst h
      rw [List.foldl_cons, foldl_setZ_zsets_nmem _ _ _ _ hnd.1]
      simp [setZ]
    · have hk1 : p.1 ≠ k := by
        intro hc
        exact hnd.1 (hc ▸ (List.mem_map.mpr ⟨(k, v), h, rfl⟩))
      have hk2 : k ≠ p.1 := fun hc => hk1 hc.symm
      rw [List.foldl_cons, ih _ hnd.2 h]
      simp [setZ, hk2]

/-- Members other than `vStr p.2` for every `p` in the fold keep their score
regardless of which sets are touched, when `e` preserves other members. -/
theorem foldl_setZ_zscore_other (e : ZSet → Option Val → ZSet)
    (he : ∀ z v m, (∀ p : String × Option Val, p.2 = v → m ≠ vStr p.2) → zscore (e z v) m = zscore z m)
    (ps : List (String × Option Val)) (st : RedisState) (k m : String)
    (hm : ∀ p ∈ ps, m ≠ vStr p.2) :
    zscore ((ps.foldl (fun s p => setZ s p.1 (e (s.zsets p.1) p.2)) st).zsets k) m =
      zscore (st.zsets k) m := by
  induction ps generalizing st with
  | nil => rfl
  | cons p ps ih =>
    rw [List.foldl_cons, ih _ (fun q hq => hm q (List.mem_cons_of_mem _ hq))]
    by_cases hk : k = p.1
    · subst hk
      simp only [setZ, if_pos rfl]
      exact he _ _ _ (fun q hq => hq ▸ hm p (List.mem_cons_self _ _))
    · simp only [setZ]
      rw [if_neg hk]

/-! ## String-key disjointness lemmas -/

theorem strData_inj {s t : String} (h : s.data = t.data) : s = t := by
  cases s; cases t; cases h; rfl

theorem vk_inj (cfg : Config) {i j : String} (h : vk cfg i = vk cfg j) : i = j := by
  have hd := congrArg String.data h
  simp only [vk, valueKey, String.data_append] at hd
  exact strData_inj (List.append_cancel_left hd)

theorem bkt_ne_setKey (cfg : Config) (ln v : String) : bkt cfg ln v ≠ cfg.setKey := by
  intro h
  have hd := congrArg (fun s => s.data.length) h
  simp only [bkt, String.data_append, List.length_append, List.length_cons,
    List.length_nil] at hd
  omega

/-- Splitting at the first colon is unambiguous for colon-free left parts. -/
theorem colon_split {l₁ l₂ r₁ r₂ : List Char} (h₁ : (':' : Char) ∉ l₁)
    (h₂ : (':' : Char) ∉ l₂) (h : l₁ ++ ':' :: r₁ = l₂ ++ ':' :: r₂) :
    l₁ = l₂ ∧ r₁ = r₂ := by
  induction l₁ generalizing l₂ with
  | nil =>
    cases l₂ with
    | nil => simpa using h
    | cons b t =>
      simp only [List.nil_append, List.cons_append, List.cons.injEq] at h
      exact absurd (List.mem_cons.mpr (Or.inl h.1)) h₂
  | cons a s ih =>
    cases l₂ with
    | nil =>
      simp only [List.cons_append, List.nil_append, List.cons.injEq] at h
      exact absurd (List.mem_cons.mpr (Or.inl h.1.symm)) h₁
    | cons b t =>
      simp only [List.cons_append, List.cons.injEq] at h
      have h₁' : (':' : Char) ∉ s := fun hc => h₁ (List.mem_cons_of_mem a hc)
      have h₂' : (':' : Char) ∉ t := fun hc => h₂ (List.mem_cons_of_mem b hc)
      obtain ⟨hl, hr⟩ := ih h₁' h₂' h.2
      exact ⟨by rw [h.1, hl], hr⟩

theorem bkt_inj (cfg : Config) {ln₁ ln₂ v₁ v₂ : String}
    (h₁ : (':' : Char) ∉ ln₁.data) (h₂ : (':' : Char) ∉ ln₂.data)
    (h : bkt cfg ln₁ v₁ = bkt cfg ln₂ v₂) : ln₁ = ln₂ ∧ v₁ = v₂ := by
  have hd := congrArg String.data h
  simp only [bkt, String.data_append, List.append_assoc, List.singleton_append] at hd
  have hd' := List.append_cancel_left hd
  have hd2 : ln₁.data ++ ':' :: v₁.data = ln₂.data ++ ':' :: v₂.data :=
    congrArg List.tail hd'
  obtain ⟨hl, hr⟩ := colon_split h₁ h₂ hd2
  exact ⟨strData_inj hl, strData_inj hr⟩

/-! ## Lemmas about `setIns` / `dedupFirst` -/

theorem mem_foldl_setIns (l : List String) (acc : List String) (y : String) :
    y ∈ l.foldl setIns acc ↔ y ∈ acc ∨ y ∈ l := by
  induction l generalizing acc with
  | nil => simp
  | cons x l ih =>
    rw [List.foldl_cons, ih]
    unfold setIns
    by_cases hx : x ∈ acc
    · rw [if_pos hx]
      simp only [List.mem_cons]
      constructor
      · rintro (h | h)
        · exact Or.inl h
        · exact Or.inr (Or.inr h)
      · rintro (h | h | h)
        · exact Or.inl h
        · exact Or.inl (by rwa [h])
        · exact Or.inr h
    · rw [if_neg hx]
      simp only [List.mem_append, List.mem_singleton, List.mem_cons]
      tauto

theorem mem_dedupFirst (l : List String) (y : String) : y ∈ dedupFirst l ↔ y ∈ l := by
  rw [dedupFirst, mem_foldl_setIns]; simp

theorem nodup_foldl_setIns (l : List String) (acc : List String) (h : acc.Nodup) :
    (l.foldl setIns acc).Nodup := by
  induction l generalizing acc with
  | nil => exact h
  | cons x l ih =>
    rw [List.foldl_cons]
    unfold setIns
    by_cases hx : x ∈ acc
    · rw [if_pos hx]; exact ih _ h
    · rw [if_neg hx]
      refine ih _ ?_
      simpa [List.nodup_append, h] using hx

theorem dedupFirst_nodup (l : List String) : (dedupFirst l).Nodup :=
  nodup_foldl_setIns l [] List.nodup_nil

theorem foldl_setIns_split (l : List String) (acc : List String) :
    ∃ t, l.foldl setIns acc = acc ++ t ∧ List.Sublist t l := by
  induction l generalizing acc with
  | nil => exact ⟨[], by simp⟩
  | cons x l ih =>
    rw [List.foldl_cons]
    unfold setIns
    by_cases hx : x ∈ acc
    · rw [if_pos hx]
      obtain ⟨t, ht, hs⟩ := ih acc
      exact ⟨t, ht, List.Sublist.cons x hs⟩
    · rw [if_neg hx]
      obtain ⟨t, ht, hs⟩ := ih (acc ++ [x])
      exact ⟨x :: t, by simpa using ht, List.Sublist.cons₂ x hs⟩

theorem dedupFirst_sublist (l : List String) : List.Sublist (dedupFirst l) l := by
  obtain ⟨t, ht, hs⟩ := foldl_setIns_split l []
  rw [dedupFirst, ht]; simpa using hs

/-! ## Lemmas about `get` -/

theorem get_absent (cfg : Config) (st : RedisState) (id : String) (del : Bool)
    (h : st.docs (valueKey cfg id) = none) : get cfg st id del = none := by
  simp [get, h]

theorem get_live (cfg : Config) (st : RedisState) (id : String) (del : Bool) (d : Doc)
    (h : st.docs (valueKey cfg id) = some d) (hlive : truthyVal (d "deletedAt") = false) :
    get cfg st id del = some d := by
  simp [get, h, hlive]

theorem get_deleted_true (cfg : Config) (st : RedisState) (id : String) (d : Doc)
    (h : st.docs (valueKey cfg id) = some d) : get cfg st id true = some d := by
  simp [get, h]

/-! ## Lemmas about `rangeReads` -/

theorem rangeReads_reads (cfg : Config) (st : RedisState) (mn mx : Int) :
    ∀ es, ∀ op ∈ (rangeReads cfg st mn mx es).2, op.isRead = true := by
  intro es
  induction es with
  | nil => intro op h; cases h
  | cons e rest ih =>
    intro op hop
    by_cases he : e.2 = ""
    · simp only [rangeReads, if_pos he] at hop
      cases hop
    · simp only [rangeReads, if_neg he] at hop
      rcases hr : rangeReads cfg st mn mx rest with ⟨res, tr⟩
      rw [hr] at hop
      cases res with
      | ok sets =>
        rcases List.mem_cons.mp hop with h | h
        · rw [h]; rfl
        · exact ih op (by rw [hr]; exact h)
      | error err =>
        rcases List.mem_cons.mp hop with h | h
        · rw [h]; rfl
        · exact ih op (by rw [hr]; exact h)

theorem rangeReads_error (cfg : Config) (st : RedisState) (mn mx : Int) :
    ∀ es, (∃ p ∈ es, p.2 = "") →
      (rangeReads cfg st mn mx es).1 =
        Except.error (StoreErr.invalidArgument "query must have key and value") := by
  intro es
  induction es with
  | nil => rintro ⟨p, hp, -⟩; cases hp
  | cons e rest ih =>
    rintro ⟨p, hp, hpv⟩
    by_cases he : e.2 = ""
    · simp only [rangeReads, if_pos he]
    · have hrest : ∃ p ∈ rest, p.2 = "" := by
        rcases List.mem_cons.mp hp with h | h
        · exact absurd (h ▸ hpv) he
        · exact ⟨p, h, hpv⟩
      simp only [rangeReads, if_neg he]
      rcases hr : rangeReads cfg st mn mx rest with ⟨res, tr⟩
      cases res with
      | ok sets =>
        have := ih hrest
        rw [hr] at this
        cases this
      | error err =>
        have := ih hrest
        rw [hr] at this
        simp only at this
        simp [this]

/-! ## Lemmas about chunking -/

theorem chunksGo_flatten (n : Nat) (hn : n ≠ 0) :
    ∀ fuel l, l.length ≤ fuel → (chunksGo n fuel l).flatten = l := by
  intro fuel
  induction fuel with
  | zero =>
    intro l hl
    have : l = [] := List.length_eq_zero.mp (Nat.le_zero.mp hl)
    subst this; rfl
  | succ fuel ih =>
    intro l hl
    cases l with
    | nil => rfl
    | cons a t =>
      show (List.take n (a :: t) :: chunksGo n fuel (List.drop n (a :: t))).flatten = a :: t
      rw [List.flatten_cons, ih _ ?_, List.take_append_drop]
      simp only [List.length_drop, List.length_cons] at *
      omega

theorem chunksOf_flatten (l : List String) : (chunksOf 256 l).flatten = l := by
  rw [chunksOf, if_neg (by omega)]
  exact chunksGo_flatten 256 (by omega) l.length l le_rfl

/-! ## Claim theorems -/

/-- The chunked multi-get of the batch loader is the single multi-get. -/
theorem chunked_mget_eq (st : RedisState) (keys : List String) :
    ((chunksOf 256 keys).map (fun ks => ks.map st.docs)).flatten = keys.map st.docs := by
  rw [← List.map_flatten, chunksOf_flatten]

/-- The batch-load stage keeps exactly the present, not-soft-deleted docs. -/
theorem mgetValues_eq (st : RedisState) (keys : List String) :
    mgetValues st keys =
      (keys.filterMap st.docs).filter (fun d => !truthyVal (d "deletedAt")) := by
  rw [mgetValues, chunked_mget_eq, List.filterMap_map]
  induction keys with
  | nil => rfl
  | cons k ks ih =>
    cases hd : st.docs k with
    | none => simpa [List.filterMap_cons, hd] using ih
    | some d =>
      cases hl : truthyVal (d "deletedAt") with
      | true => simpa [List.filterMap_cons, hd, hl, Function.comp] using ih
      | false => simpa [List.filterMap_cons, hd, hl, Function.comp] using ih

/-- C8: splitting the document keys into fixed-size chunks, issuing one
multi-get per chunk and flattening yields the same list of (possibly
absent) documents as a single multi-get over all keys; the final result of
the batch-load stage contains exactly the documents that are present with
`deletedAt` unset; and `find` on an explicit id list is exactly this
pipeline over the filtered, key-mapped ids. -/
theorem claim8_batch_refinement (st : RedisState) (keys : List String) (cfg : Config)
    (m : List String) (sched : Nat → Nat) (idl : List String) :
    ((chunksOf 256 keys).map (fun ks => ks.map st.docs)).flatten = keys.map st.docs ∧
    mgetValues st keys =
      (keys.filterMap st.docs).filter (fun d => !truthyVal (d "deletedAt")) ∧
    find cfg st m sched { idList := some idl } =
      Except.ok (mgetValues st ((idl.filter (fun i => i ≠ "")).map (valueKey cfg))) :=
  ⟨chunked_mget_eq st keys, mgetValues_eq st keys, rfl⟩

/-- The documents are untouched by the zset writes of `delete`: the final
document map is that of the hard or soft document operation alone. -/
theorem delete_state_docs (cfg : Config) (opts : Opts) (st : RedisState) (id : String)
    (now : Nat) (hid : id ≠ "") :
    (delete cfg opts st id now).2.1.docs =
      (if opts.hardDelete then removeDoc st (valueKey cfg id)
       else patchField st (valueKey cfg id) "deletedAt" (Val.num now)).docs := by
  simp only [delete, if_neg hid]
  rw [foldl_setZ_docs]
  rfl

/-- C9: deleting a truthy id whose document is absent reads the record
first, warns, performs index cleanup as a no-op on the lookup sets
(only the primary-index removal is issued), completes without error and
returns no record. -/
theorem claim9_delete_missing (cfg : Config) (st : RedisState) (id : String) (now : Nat)
    (hid : id ≠ "") (habs : st.docs (valueKey cfg id) = none) :
    (delete cfg {} st id now).1 = Except.ok none ∧
    (delete cfg {} st id now).2.2 =
      [Op.readDoc (valueKey cfg id), Op.patchDoc (valueKey cfg id) "deletedAt",
        Op.zremOp cfg.setKey id] ∧
    ∀ k, k ≠ cfg.setKey → (delete cfg {} st id now).2.1.zsets k = st.zsets k := by
  have hget : get cfg st id true = none := get_absent cfg st id true habs
  refine ⟨?_, ?_, ?_⟩
  · simp [delete, if_neg hid, hget]
  · simp [delete, if_neg hid, hget]
  · intro k hk
    simp [delete, if_neg hid, hget, setZ, patchField, hk]

theorem claim9_witness :
    (delete cfgT {} initState "zzz" 5).1 = Except.ok none ∧
    (delete cfgT {} initState "zzz" 5).2.2 =
      [Op.readDoc (valueKey cfgT "zzz"), Op.patchDoc (valueKey cfgT "zzz") "deletedAt",
        Op.zremOp cfgT.setKey "zzz"] ∧
    ∀ k, k ≠ cfgT.setKey → (delete cfgT {} initState "zzz" 5).2.1.zsets k =
      initState.zsets k :=
  claim9_delete_missing cfgT initState "zzz" 5 (by decide) rfl

/-- C10: a successful update stores exactly the supplied value with
`updatedAt := now`: fields of the previous document that are absent from
the supplied value are dropped (wholesale replacement, no merge). -/
theorem claim10_update_replaces (cfg : Config) (st : RedisState) (value : Doc) (now : Nat)
    (s : String) (d : Doc) (hid : value "id" = some (Val.str s)) (hs : s ≠ "")
    (hdoc : st.docs (valueKey cfg s) = some d) (hlive : truthyVal (d "deletedAt") = false) :
    (update cfg {} st value now).1 =
      Except.ok (fun k => if k = "updatedAt" then some (Val.num now) else value k) ∧
    (update cfg {} st value now).2.1.docs (valueKey cfg s) =
      some (fun k => if k = "updatedAt" then some (Val.num now) else value k) ∧
    ∀ f, f ≠ "updatedAt" → value f = none →
      docField (update cfg {} st value now).2.1 (valueKey cfg s) f = none := by
  have htr : truthyVal (value "id") = true := by simp [truthyVal, hid, hs]
  have hvs : vStr (value "id") = s := by rw [hid]; rfl
  have hget : get cfg st s false = some d := get_live cfg st s false d hdoc hlive
  have hdocs : (update cfg {} st value now).2.1.docs (valueKey cfg s) =
      some (fun k => if k = "updatedAt" then some (Val.num now) else value k) := by
    simp only [update, htr, hvs, hget]
    simp only [Bool.true_eq_false, if_false]
    rw [foldl_setZ_docs]
    simp [setDoc]
  refine ⟨?_, hdocs, ?_⟩
  · simp only [update, htr, hvs, hget]
    simp only [Bool.true_eq_false, if_false]
  · intro f hf hvf
    rw [docField, hdocs]
    simp [hf, hvf]

theorem claim10_witness :
    (update cfgT {} st1 (docOf [("id", Val.str "r1"), ("createdAt", Val.num 1),
        ("category", Val.str "C9")]) 7).1 =
      Except.ok (fun k => if k = "updatedAt" then some (Val.num 7) else
        docOf [("id", Val.str "r1"), ("createdAt", Val.num 1), ("category", Val.str "C9")] k) ∧
    (update cfgT {} st1 (docOf [("id", Val.str "r1"), ("createdAt", Val.num 1),
        ("category", Val.str "C9")]) 7).2.1.docs (valueKey cfgT "r1") =
      some (fun k => if k = "updatedAt" then some (Val.num 7) else
        docOf [("id", Val.str "r1"), ("createdAt", Val.num 1), ("category", Val.str "C9")] k) ∧
    ∀ f, f ≠ "updatedAt" →
      docOf [("id", Val.str "r1"), ("createdAt", Val.num 1), ("category", Val.str "C9")] f = none →
      docField (update cfgT {} st1 (docOf [("id", Val.str "r1"), ("createdAt", Val.num 1),
        ("category", Val.str "C9")]) 7).2.1 (valueKey cfgT "r1") f = none :=
  claim10_update_replaces cfgT st1 _ 7 "r1" (createdValueOf v1 1 "g1") rfl
    (by decide) rfl (by decide)

/-- C2: after a soft delete of a stored record, `get` without the `deleted`
option reports not-found while `get(id, deleted)` returns the record with
`deletedAt` set; after a hard delete even `get(id, deleted)` reports
not-found; and in general `get` returns not-found exactly when the
document is absent or soft-deleted without the `deleted` option. -/
theorem claim2_soft_hard_delete_get (cfg : Config) (st : RedisState) (id : String) (d : Doc)
    (now : Nat) (hdoc : st.docs (valueKey cfg id) = some d) (hid : id ≠ "")
    (hnow : 0 < now) :
    get cfg (delete cfg {} st id now).2.1 id false = none ∧
    get cfg (delete cfg {} st id now).2.1 id true =
      some (fun f => if f = "deletedAt" then some (Val.num now) else d f) ∧
    get cfg (delete cfg { hardDelete := true } st id now).2.1 id true = none ∧
    (∀ (st' : RedisState) (del : Bool),
      get cfg st' id del = none ↔
        st'.docs (valueKey cfg id) = none ∨
        ∃ e, st'.docs (valueKey cfg id) = some e ∧ truthyVal (e "deletedAt") = true ∧
          del = false) := by
  have hnz : now ≠ 0 := Nat.pos_iff_ne_zero.mp hnow
  have hsoft : (delete cfg {} st id now).2.1.docs (valueKey cfg id) =
      some (fun f => if f = "deletedAt" then some (Val.num now) else d f) := by
    rw [delete_state_docs cfg {} st id now hid]
    simp [patchField, hdoc]
  have hhard : (delete cfg { hardDelete := true } st id now).2.1.docs (valueKey cfg id) =
      none := by
    rw [delete_state_docs cfg { hardDelete := true } st id now hid]
    simp [removeDoc]
  refine ⟨?_, ?_, ?_, ?_⟩
  · simp [get, hsoft, truthyVal, hnz]
  · exact get_deleted_true cfg _ id _ hsoft
  · exact get_absent cfg _ id true hhard
  · intro st' del
    cases hd' : st'.docs (valueKey cfg id) with
    | none => simp [get, hd']
    | some e =>
      cases hdel : truthyVal (e "deletedAt") with
      | false => simp [get, hd', hdel]
      | true =>
        cases del with
        | false => simp [get, hd', hdel]
        | true => simp [get, hd', hdel]

theorem claim2_witness :
    get cfgT (delete cfgT {} st1 "r1" 9).2.1 "r1" false = none ∧
    get cfgT (delete cfgT {} st1 "r1" 9).2.1 "r1" true =
      some (fun f => if f = "deletedAt" then some (Val.num 9)
        else createdValueOf v1 1 "g1" f) ∧
    get cfgT (delete cfgT { hardDelete := true } st1 "r1" 9).2.1 "r1" true = none ∧
    (∀ (st' : RedisState) (del : Bool),
      get cfgT st' "r1" del = none ↔
        st'.docs (valueKey cfgT "r1") = none ∨
        ∃ e, st'.docs (valueKey cfgT "r1") = some e ∧ truthyVal (e "deletedAt") = true ∧
          del = false) :=
  claim2_soft_hard_delete_get cfgT st1 "r1" (createdValueOf v1 1 "g1") 9 rfl
    (by decide) (by decide)

/-- Shape of `ids` on a criteria query (no scan, nonempty criteria). -/
theorem ids_criteria_eq (cfg : Config) (st : RedisState) (m : List String)
    (sched : Nat → Nat) (q : Query) (hscan : q.scan = none) (hne : q.criteria ≠ []) :
    ids cfg st m sched q =
      (match rangeReads cfg st (mnQ q) (mxQ q) q.criteria with
        | (Except.ok sets, tr) => (Except.ok (setIntersectFold sets), tr)
        | (Except.error err, tr) => (Except.error err, tr)) := by
  simp only [ids, hscan, Option.getD_none, ne_eq, not_true_eq_false, if_false,
    List.nil_append]
  rw [if_neg (by simpa [List.isEmpty_iff] using hne)]
  rfl

/-- C7 (amended): update on a falsy id and delete on a falsy id fail
before any backend command is dispatched and leave the state unchanged; a
criteria query containing a falsy value fails with the caller error and
dispatches only range reads (never writes), though reads for earlier
criteria may already have been issued. -/
theorem claim7_validation (cfg : Config) (st : RedisState) (m : List String)
    (sched : Nat → Nat) (value : Doc) (now : Nat) (q : Query)
    (hfalsy : truthyVal (value "id") = false) (hscan : q.scan = none)
    (hex : ∃ p ∈ q.criteria, p.2 = "") :
    update cfg {} st value now =
      (Except.error (StoreErr.notFound "Cannot update: null id"), st, []) ∧
    delete cfg {} st "" now =
      (Except.error (StoreErr.invalidArgument "Cannot delete: null id"), st, []) ∧
    (ids cfg st m sched q).1 =
      Except.error (StoreErr.invalidArgument "query must have key and value") ∧
    ∀ op ∈ (ids cfg st m sched q).2, op.isRead = true := by
  have hne : q.criteria ≠ [] := by
    rcases hex with ⟨p, hp, -⟩
    intro hc; rw [hc] at hp; cases hp
  have hids := ids_criteria_eq cfg st m sched q hscan hne
  refine ⟨by simp [update, hfalsy], by simp [delete], ?_, ?_⟩
  · rw [hids]
    rcases hr : rangeReads cfg st (mnQ q) (mxQ q) q.criteria with ⟨res, tr⟩
    have herr := rangeReads_error cfg st (mnQ q) (mxQ q) q.criteria hex
    rw [hr] at herr
    cases res with
    | ok sets => cases herr
    | error err =>
      simp only [hr]
      simp only at herr
      rw [Except.error.inj herr]
  · intro op hop
    rw [hids] at hop
    rcases hr : rangeReads cfg st (mnQ q) (mxQ q) q.criteria with ⟨res, tr⟩
    rw [hr] at hop
    have := rangeReads_reads cfg st (mnQ q) (mxQ q) q.criteria op
    rw [hr] at this
    cases res with
    | ok sets => exact this hop
    | error err => exact this hop

theorem claim7_witness :
    update cfgT {} initState (docOf []) 5 =
      (Except.error (StoreErr.notFound "Cannot update: null id"), initState, []) ∧
    delete cfgT {} initState "" 5 =
      (Except.error (StoreErr.invalidArgument "Cannot delete: null id"), initState, []) ∧
    (ids cfgT initState [] (fun _ => 0) q7).1 =
      Except.error (StoreErr.invalidArgument "query must have key and value") ∧
    ∀ op ∈ (ids cfgT initState [] (fun _ => 0) q7).2, op.isRead = true :=
  claim7_validation cfgT initState [] (fun _ => 0) (docOf []) 5 q7 (by decide) rfl
    (by decide)

/-- C7 counterexample: with criteria `user="U1", category=""` the call
fails, but the range read for the earlier `user` criterion has already
been dispatched — the validation error does not precede all backend I/O. -/
theorem claim7_counterexample :
    (ids cfgT initState [] (fun _ => 0) q7).1 =
      Except.error (StoreErr.invalidArgument "query must have key and value") ∧
    (ids cfgT initState [] (fun _ => 0) q7).2 = [Op.readRange "things:user:U1" 0 (-1)] :=
  ⟨rfl, rfl⟩

/-! ## Intersection lemmas -/

theorem mem_intersect_foldl (l : List (List String)) (prev : List String) (x : String) :
    x ∈ l.foldl (fun prev curr => (dedupFirst curr).filter (fun y => y ∈ prev)) prev ↔
      x ∈ prev ∧ ∀ t ∈ l, x ∈ t := by
  induction l generalizing prev with
  | nil => simp
  | cons s l ih =>
    rw [List.foldl_cons, ih]
    constructor
    · rintro ⟨hx, hall⟩
      obtain ⟨hxd, hxp⟩ := List.mem_filter.mp hx
      refine ⟨by simpa using hxp, fun t ht => ?_⟩
      rcases List.mem_cons.mp ht with h | h
      · exact h ▸ (mem_dedupFirst s x).mp hxd
      · exact hall t h
    · rintro ⟨hp, hall⟩
      refine ⟨List.mem_filter.mpr ⟨(mem_dedupFirst s x).mpr
        (hall s (List.mem_cons_self _ _)), by simpa using hp⟩,
        fun t ht => hall t (List.mem_cons_of_mem _ ht)⟩

theorem mem_setIntersectFold (s : List String) (rest : List (List String)) (x : String) :
    x ∈ setIntersectFold (s :: rest) ↔ x ∈ s ∧ ∀ t ∈ rest, x ∈ t := by
  rw [setIntersectFold, mem_intersect_foldl, mem_dedupFirst]

theorem rangeReads_ok (cfg : Config) (st : RedisState) (mn mx : Int) :
    ∀ es, (∀ p ∈ es, p.2 ≠ "") →
      (rangeReads cfg st mn mx es).1 =
        Except.ok (es.map (fun p => zrangeRev (st.zsets (bkt cfg p.1 p.2)) mn mx)) := by
  intro es
  induction es with
  | nil => intro _; rfl
  | cons e rest ih =>
    intro hall
    have he : e.2 ≠ "" := hall e (List.mem_cons_self _ _)
    have hrest := ih (fun p hp => hall p (List.mem_cons_of_mem _ hp))
    simp only [rangeReads, if_neg he]
    rcases hr : rangeReads cfg st mn mx rest with ⟨res, tr⟩
    rw [hr] at hrest
    cases res with
    | ok sets =>
      simp only at hrest
      simp [Except.ok.inj hrest]
    | error err => cases hrest

/-- C3: a query of two or more truthy lookup criteria (no scan, offset or
count) resolves to the fold of the polyfilled set intersection over the
per-criterion reversed full-range reads of each criterion's lookup-index
set, whose members are exactly the ids present in every per-criterion
read; concretely, with records tagged (user U1, category C1),
(user U1, category C2), (user U2, category C1), find({user U1,
category C1}) returns exactly the first record. -/
theorem claim3_intersection (cfg : Config) (st : RedisState) (m : List String)
    (sched : Nat → Nat) (q : Query) (hscan : q.scan = none) (hoff : q.offset = none)
    (hcnt : q.count = none) (hlen : 2 ≤ q.criteria.length)
    (htruthy : ∀ p ∈ q.criteria, p.2 ≠ "") :
    ((ids cfg st m sched q).1 =
      Except.ok (setIntersectFold
        (q.criteria.map (fun p => zrangeRev (st.zsets (bkt cfg p.1 p.2)) 0 (-1)))) ∧
     ∀ x, x ∈ setIntersectFold
          (q.criteria.map (fun p => zrangeRev (st.zsets (bkt cfg p.1 p.2)) 0 (-1))) ↔
        ∀ p ∈ q.criteria, x ∈ zrangeRev (st.zsets (bkt cfg p.1 p.2)) 0 (-1)) ∧
    (match find cfgT st3 [] (fun _ => 0)
        { criteria := [("user", "U1"), ("category", "C1")] } with
      | Except.ok l => l.map (fun d => vStr (d "id"))
      | Except.error _ => []) = ["r1"] := by
  have hne : q.criteria ≠ [] := by
    intro hc; rw [hc] at hlen; cases hlen
  have hmn : mnQ q = 0 := by simp [mnQ, hoff]
  have hmx : mxQ q = -1 := by simp [mxQ, mnQ, hoff, hcnt]
  have hids := ids_criteria_eq cfg st m sched q hscan hne
  refine ⟨⟨?_, ?_⟩, rfl⟩
  · rw [hids]
    rcases hr : rangeReads cfg st (mnQ q) (mxQ q) q.criteria with ⟨res, tr⟩
    have hok := rangeReads_ok cfg st (mnQ q) (mxQ q) q.criteria htruthy
    rw [hr] at hok
    cases res with
    | ok sets =>
      simp only at hok
      rw [hmn, hmx] at hok
      simp [Except.ok.inj hok]
    | error err => cases hok
  · intro x
    rcases hc : q.criteria with _ | ⟨c, rest⟩
    · exact absurd hc hne
    · rw [List.map_cons, mem_setIntersectFold]
      constructor
      · rintro ⟨hx, hall⟩
        intro p hp
        rcases List.mem_cons.mp hp with h | h
        · exact h ▸ hx
        · exact hall _ (List.mem_map.mpr ⟨p, h, rfl⟩)
      · intro hall
        refine ⟨hall c (List.mem_cons_self _ _), fun t ht => ?_⟩
        obtain ⟨p, hp, hpt⟩ := List.mem_map.mp ht
        exact hpt ▸ hall p (List.mem_cons_of_mem _ hp)

theorem claim3_witness :
    ((ids cfgT st3 [] (fun _ => 0)
        { criteria := [("user", "U1"), ("category", "C1")] }).1 =
      Except.ok (setIntersectFold
        ([("user", "U1"), ("category", "C1")].map
          (fun p => zrangeRev (st3.zsets (bkt cfgT p.1 p.2)) 0 (-1)))) ∧
     ∀ x, x ∈ setIntersectFold
          ([("user", "U1"), ("category", "C1")].map
            (fun p => zrangeRev (st3.zsets (bkt cfgT p.1 p.2)) 0 (-1))) ↔
        ∀ p ∈ [("user", "U1"), ("category", "C1")],
          x ∈ zrangeRev (st3.zsets (bkt cfgT p.1 p.2)) 0 (-1)) ∧
    (match find cfgT st3 [] (fun _ => 0)
        { criteria := [("user", "U1"), ("category", "C1")] } with
      | Except.ok l => l.map (fun d => vStr (d "id"))
      | Except.error _ => []) = ["r1"] :=
  claim3_intersection cfgT st3 [] (fun _ => 0)
    { criteria := [("user", "U1"), ("category", "C1")] } rfl rfl rfl (by decide)
    (by decide)

/-! ## Scan loop lemmas -/

theorem scanAdd_spec (count : Nat) :
    ∀ (ks acc : List String), (acc ++ ks.map keySuffix).Nodup →
      scanAdd count acc ks = acc ++ (ks.map keySuffix).take (count - acc.length) := by
  intro ks
  induction ks with
  | nil => intro acc _; simp [scanAdd]
  | cons k ks ih =>
    intro acc h
    rw [scanAdd, List.foldl_cons]
    by_cases hlt : acc.length < count
    · have hnin : keySuffix k ∉ acc := by
        intro hc
        rw [List.map_cons] at h
        exact (List.disjoint_of_nodup_append h) hc (List.mem_cons_self _ _)
      rw [if_pos hlt, if_neg hnin]
      have hnd' : ((acc ++ [keySuffix k]) ++ ks.map keySuffix).Nodup := by
        rw [List.map_cons] at h
        simpa [List.append_assoc] using h
      have := ih (acc ++ [keySuffix k]) hnd'
      rw [scanAdd] at this
      rw [this]
      have harith : count - acc.length = (count - (acc ++ [keySuffix k]).length) + 1 := by
        simp only [List.length_append, List.length_singleton]
        omega
      rw [List.map_cons, harith, List.take_succ_cons]
      simp [List.append_assoc]
    · rw [if_neg hlt]
      have hnd' : (acc ++ ks.map keySuffix).Nodup := by
        rw [List.map_cons] at h
        refine h.sublist ?_
        exact (List.sublist_cons_self _ _).append_left acc
      have := ih acc hnd'
      rw [scanAdd] at this
      rw [this]
      have : count - acc.length = 0 := by omega
      simp [this]

theorem scanLoop_spec (count : Nat) (sched : Nat → Nat) :
    ∀ (n : Nat) (rem : List String), rem.length = n → ∀ (iter : Nat) (acc : List String),
      (acc ++ rem.map keySuffix).Nodup → acc.length ≤ count →
      scanLoop count sched iter acc rem =
        acc ++ (rem.map keySuffix).take (count - acc.length) := by
  intro n
  induction n using Nat.strong_induction_on with
  | _ n ih =>
    intro rem hlen iter acc hnd hle
    subst hlen
    rw [scanLoop]
    have hchunksub : List.Sublist ((rem.take (sched iter + 1)).map keySuffix)
        (rem.map keySuffix) := (List.take_sublist (sched iter + 1) rem).map keySuffix
    have hchunknd : (acc ++ (rem.take (sched iter + 1)).map keySuffix).Nodup :=
      hnd.sublist (hchunksub.append_left acc)
    have hacc' := scanAdd_spec count (rem.take (sched iter + 1)) acc hchunknd
    have hsplit : rem.map keySuffix =
        (rem.take (sched iter + 1)).map keySuffix ++ (rem.drop (sched iter + 1)).map keySuffix := by
      rw [← List.map_append, List.take_append_drop]
    by_cases hrest : (rem.drop (sched iter + 1)).isEmpty
    · rw [dif_neg (by simp [hrest])]
      rw [hacc']
      have hr0 : rem.drop (sched iter + 1) = [] := List.isEmpty_iff.mp hrest
      have hlen0 : rem.length ≤ sched iter + 1 := by
        have := congrArg List.length hr0
        simp only [List.length_drop, List.length_nil] at this
        omega
      rw [List.take_of_length_le hlen0]
    · have hrne : rem.drop (sched iter + 1) ≠ [] := by
        intro hc; rw [hc] at hrest; simp at hrest
      have hremne : rem ≠ [] := by
        intro hc; rw [hc] at hrne; simp at hrne
      have hlt : (rem.drop (sched iter + 1)).length < rem.length := by
        have h1 : 0 < rem.length := List.length_pos.mpr hremne
        simp only [List.length_drop]
        omega
      by_cases hcap : (scanAdd count acc (rem.take (sched iter + 1))).length < count
      · rw [dif_pos ⟨hcap, by simp [hrest], by simp [hrest]⟩]
        have hAlen : ((rem.take (sched iter + 1)).map keySuffix).length ≤
            count - acc.length := by
          rw [hacc'] at hcap
          simp only [List.length_append, List.length_take] at hcap
          simp only [List.length_map, List.length_take] at *
          omega
        have hAfull : (((rem.take (sched iter + 1)).map keySuffix).take (count - acc.length)) =
            (rem.take (sched iter + 1)).map keySuffix := List.take_of_length_le hAlen
        have hnd2 : ((acc ++ (rem.take (sched iter + 1)).map keySuffix) ++
            (rem.drop (sched iter + 1)).map keySuffix).Nodup := by
          rw [List.append_assoc, ← hsplit]
          exact hnd
        have hrec := ih (rem.drop (sched iter + 1)).length hlt (rem.drop (sched iter + 1))
          rfl (iter + 1) (scanAdd count acc (rem.take (sched iter + 1)))
          (by rw [hacc', hAfull]; exact hnd2) (Nat.le_of_lt hcap)
        rw [hrec, hacc', hAfull, hsplit, List.take_append_eq_append_take,
          List.take_of_length_le hAlen]
        have harith2 : count - (acc ++ (rem.take (sched iter + 1)).map keySuffix).length =
            count - acc.length - ((rem.take (sched iter + 1)).map keySuffix).length := by
          simp only [List.length_append]; omega
        rw [harith2, List.append_assoc]
      · rw [dif_neg (fun hcon => absurd hcon.1 hcap)]
        rw [hacc']
        have hAlen2 : count - acc.length ≤ ((rem.take (sched iter + 1)).map keySuffix).length := by
          rw [hacc'] at hcap
          simp only [List.length_append, List.length_take, List.length_map] at hcap ⊢
          omega
        rw [hsplit, List.take_append_eq_append_take,
          show count - acc.length - ((rem.take (sched iter + 1)).map keySuffix).length = 0 by omega]
        simp

/-- C6: the scan loop terminates for every backend chunk schedule and, over
M stored matching keys with cap N (`count`, defaulted to 999 with a warning
when absent or zero), returns exactly min(N, M) distinct ids with no
duplicates, each id a key's suffix after its first colon; and a truthy
`query.scan` routes `ids` to this loop. -/
theorem claim6_scan (cfg : Config) (st : RedisState) (matching : List String)
    (sched : Nat → Nat) (q : Query) (p : String)
    (hnd : (matching.map keySuffix).Nodup) (hp : q.scan = some p) (hpt : p ≠ "") :
    (scan cfg matching sched q).length = min (scanCount q) matching.length ∧
    (scan cfg matching sched q).Nodup ∧
    (∀ x ∈ scan cfg matching sched q, ∃ k ∈ matching, x = keySuffix k) ∧
    (ids cfg st matching sched q).1 = Except.ok (scan cfg matching sched q) := by
  have htop : scan cfg matching sched q = (matching.map keySuffix).take (scanCount q) := by
    rw [scan]
    rw [scanLoop_spec (scanCount q) sched matching.length matching rfl 0 []
      (by simpa using hnd) (Nat.zero_le _)]
    simp
  refine ⟨?_, ?_, ?_, ?_⟩
  · rw [htop]
    simp [List.length_take]
  · rw [htop]
    exact hnd.sublist (List.take_sublist _ _)
  · intro x hx
    rw [htop] at hx
    have hx' : x ∈ matching.map keySuffix :=
      (List.take_sublist _ _).subset hx
    obtain ⟨k, hk, hkx⟩ := List.mem_map.mp hx'
    exact ⟨k, hk, hkx.symm⟩
  · simp [ids, hp, hpt]

theorem claim6_witness :
    (scan cfgT ["thing:a", "thing:b", "thing:c"] (fun _ => 0)
        { scan := some "*", count := some 2 }).length =
      min (scanCount { scan := some "*", count := some 2 }) 3 ∧
    (scan cfgT ["thing:a", "thing:b", "thing:c"] (fun _ => 0)
        { scan := some "*", count := some 2 }).Nodup ∧
    (∀ x ∈ scan cfgT ["thing:a", "thing:b", "thing:c"] (fun _ => 0)
        { scan := some "*", count := some 2 },
      ∃ k ∈ ["thing:a", "thing:b", "thing:c"], x = keySuffix k) ∧
    (ids cfgT initState ["thing:a", "thing:b", "thing:c"] (fun _ => 0)
        { scan := some "*", count := some 2 }).1 =
      Except.ok (scan cfgT ["thing:a", "thing:b", "thing:c"] (fun _ => 0)
        { scan := some "*", count := some 2 }) :=
  claim6_scan cfgT initState ["thing:a", "thing:b", "thing:c"] (fun _ => 0)
    { scan := some "*", count := some 2 } "*" (by decide) rfl (by decide)

theorem zscore_of_mem_nodup (z : ZSet) (hnd : (z.map (fun p => p.1)).Nodup)
    (p : String × Nat) (hp : p ∈ z) : zscore z p.1 = some p.2 := by
  induction z with
  | nil => cases hp
  | cons a z ih =>
    simp only [List.map_cons, List.nodup_cons] at hnd
    rcases List.mem_cons.mp hp with h | h
    · subst h
      rw [zscore, List.find?_cons_of_pos _ (by simp)]
      rfl
    · have hne : a.1 ≠ p.1 := by
        intro hc
        exact hnd.1 (hc ▸ List.mem_map.mpr ⟨p, h, rfl⟩)
      rw [zscore, List.find?_cons_of_neg _ (by simp [hne])]
      exact ih hnd.2 h

theorem zscore_mem (z : ZSet) (m : String) (s : Nat) (h : zscore z m = some s) :
    (m, s) ∈ z := by
  rw [zscore] at h
  obtain ⟨q, hq, hq2⟩ := Option.map_eq_some'.mp h
  have h1 := List.find?_some hq
  have h2 := List.mem_of_find?_eq_some hq
  simp only [decide_eq_true_eq] at h1
  obtain ⟨q1, q2⟩ := q
  simp only at h1 hq2
  subst h1; subst hq2
  exact h2

theorem pairwise_filterMap_of {α β : Type} (f : α → Option β) (R : α → α → Prop)
    (S : β → β → Prop) (h : ∀ a b x y, R a b → f a = some x → f b = some y → S x y) :
    ∀ l : List α, l.Pairwise R → (l.filterMap f).Pairwise S := by
  intro l
  induction l with
  | nil => intro _; simp
  | cons a l ih =>
    intro hp
    rw [List.filterMap_cons]
    rcases List.pairwise_cons.mp hp with ⟨hhead, htail⟩
    cases hf : f a with
    | none => exact ih htail
    | some x =>
      rw [List.pairwise_cons]
      refine ⟨?_, ih htail⟩
      intro y hy
      obtain ⟨b, hb, hfb⟩ := List.mem_filterMap.mp hy
      exact h a b x y (hhead b hb) hf hfb

theorem insertionSort_strict (z : ZSet) (hsc : z.Pairwise (fun a b => a.2 ≠ b.2)) :
    (List.insertionSort revCmp z).Pairwise (fun a b => b.2 < a.2) := by
  have hs : (List.insertionSort revCmp z).Pairwise revCmp :=
    List.sorted_insertionSort revCmp z
  have hsc' : (List.insertionSort revCmp z).Pairwise (fun a b => a.2 ≠ b.2) :=
    (List.Perm.pairwise_iff (fun h => Ne.symm h)
      (List.perm_insertionSort revCmp z).symm).mp hsc
  refine (hs.and hsc').imp ?_
  rintro a b ⟨hr | ⟨he, _⟩, hne⟩
  · exact hr
  · exact absurd he hne

theorem rangeWindow_sublist (n : Nat) (mn mx : Int) (l : List (String × Nat)) :
    List.Sublist (rangeWindow n mn mx l) l := by
  rw [rangeWindow]
  by_cases h : (if mx < 0 then (n : Int) + mx else mx) <
      max (if mn < 0 then (n : Int) + mn else mn) 0
  · rw [if_pos h]; exact List.nil_sublist l
  · rw [if_neg h]; exact (List.take_sublist _ _).trans (List.drop_sublist _ _)

theorem zrangeRev_pairwise (z : ZSet) (mn mx : Int)
    (hsc : z.Pairwise (fun a b => a.2 ≠ b.2))
    (hnd : (z.map (fun p => p.1)).Nodup) :
    (zrangeRev z mn mx).Pairwise (fun a b =>
      ∃ sa sb, zscore z a = some sa ∧ zscore z b = some sb ∧ sb < sa) := by
  rw [zrangeRev, List.pairwise_map]
  refine ((insertionSort_strict z hsc).sublist (rangeWindow_sublist _ _ _ _)).imp_of_mem ?_
  intro p q hp hq hlt
  have hpz : p ∈ z := (List.perm_insertionSort revCmp z).subset
    ((rangeWindow_sublist _ _ _ _).subset hp)
  have hqz : q ∈ z := (List.perm_insertionSort revCmp z).subset
    ((rangeWindow_sublist _ _ _ _).subset hq)
  exact ⟨p.2, q.2, zscore_of_mem_nodup z hnd p hpz, zscore_of_mem_nodup z hnd q hqz, hlt⟩

theorem ids_plain_eq (cfg : Config) (st : RedisState) (m : List String) (sched : Nat → Nat)
    (q : Query) (hscan : q.scan = none) (hcrit : q.criteria = []) :
    ids cfg st m sched q =
      (Except.ok (dedupFirst (zrangeRev (st.zsets cfg.setKey) (mnQ q) (mxQ q))),
       [Op.readRange cfg.setKey (mnQ q) (mxQ q)]) := by
  simp [ids, hscan, hcrit, mnQ, mxQ]

/-- C5: a query with no criteria resolves ids by a reversed-by-score range
read of the primary index from rank `offset` to `offset + count - 1`
(`mnQ`/`mxQ`), and — when the primary index is consistent (member scores
are the records' `createdAt`) and scores are pairwise distinct, as
produced by a monotonic clock — `find` returns the records in strictly
descending `createdAt` order. -/
theorem claim5_reverse_chrono (cfg : Config) (st : RedisState) (m : List String)
    (sched : Nat → Nat) (q : Query)
    (hscan : q.scan = none) (hid : q.idList = none) (hcrit : q.criteria = [])
    (hprim : ∀ p ∈ st.zsets cfg.setKey, ∃ d, st.docs (vk cfg p.1) = some d ∧
      d "createdAt" = some (Val.num p.2))
    (hsc : (st.zsets cfg.setKey).Pairwise (fun a b => a.2 ≠ b.2))
    (hnd : ((st.zsets cfg.setKey).map (fun p => p.1)).Nodup) :
    (ids cfg st m sched q).1 =
      Except.ok (dedupFirst (zrangeRev (st.zsets cfg.setKey) (mnQ q) (mxQ q))) ∧
    find cfg st m sched q = Except.ok (mgetValues st
      ((dedupFirst (zrangeRev (st.zsets cfg.setKey) (mnQ q) (mxQ q))).map
        (fun i => cfg.key ++ ":" ++ i))) ∧
    (mgetValues st ((dedupFirst (zrangeRev (st.zsets cfg.setKey) (mnQ q) (mxQ q))).map
        (fun i => cfg.key ++ ":" ++ i))).Pairwise
      (fun d₁ d₂ => vNum (d₂ "createdAt") < vNum (d₁ "createdAt")) := by
  have hids := ids_plain_eq cfg st m sched q hscan hcrit
  refine ⟨by rw [hids], ?_, ?_⟩
  · simp only [find, hid, hids]
  · have hpw : (dedupFirst (zrangeRev (st.zsets cfg.setKey) (mnQ q) (mxQ q))).Pairwise
        (fun a b => ∃ sa sb, zscore (st.zsets cfg.setKey) a = some sa ∧
          zscore (st.zsets cfg.setKey) b = some sb ∧ sb < sa) :=
      List.Pairwise.sublist (dedupFirst_sublist _) (zrangeRev_pairwise _ _ _ hsc hnd)
    rw [mgetValues_eq, List.filterMap_map]
    refine List.Pairwise.sublist (List.filter_sublist _) ?_
    refine pairwise_filterMap_of _ _ _ ?_ _ hpw
    intro a b x y hab hfa hfb
    obtain ⟨sa, sb, hza, hzb, hlt⟩ := hab
    obtain ⟨da, hda, hca⟩ := hprim (a, sa) (zscore_mem _ _ _ hza)
    obtain ⟨db, hdb, hcb⟩ := hprim (b, sb) (zscore_mem _ _ _ hzb)
    have hxa : x = da := by
      have hfa' : st.docs (vk cfg a) = some x := hfa
      rw [hfa'] at hda
      exact Option.some.inj hda
    have hyb : y = db := by
      have hfb' : st.docs (vk cfg b) = some y := hfb
      rw [hfb'] at hdb
      exact Option.some.inj hdb
    rw [hxa, hyb, hca, hcb]
    simpa [vNum] using hlt


theorem claim5_witness :
    (ids cfgT st3 [] (fun _ => 0) {}).1 =
      Except.ok (dedupFirst (zrangeRev (st3.zsets cfgT.setKey) (mnQ {}) (mxQ {}))) ∧
    find cfgT st3 [] (fun _ => 0) {} = Except.ok (mgetValues st3
      ((dedupFirst (zrangeRev (st3.zsets cfgT.setKey) (mnQ {}) (mxQ {}))).map
        (fun i => cfgT.key ++ ":" ++ i))) ∧
    (mgetValues st3 ((dedupFirst (zrangeRev (st3.zsets cfgT.setKey) (mnQ {}) (mxQ {}))).map
        (fun i => cfgT.key ++ ":" ++ i))).Pairwise
      (fun d₁ d₂ => vNum (d₂ "createdAt") < vNum (d₁ "createdAt")) :=
  claim5_reverse_chrono cfgT st3 [] (fun _ => 0) {} rfl rfl rfl
    (by
      intro p hp
      have hz : st3.zsets cfgT.setKey = [("r1", 1), ("r2", 2), ("r3", 3)] := rfl
      rw [hz] at hp
      simp only [List.mem_cons, List.not_mem_nil, or_false] at hp
      rcases hp with h | h | h
      · subst h; exact ⟨createdValueOf v1 1 "g1", rfl, rfl⟩
      · subst h; exact ⟨createdValueOf v2 2 "g2", rfl, rfl⟩
      · subst h; exact ⟨createdValueOf v3 3 "g3", rfl, rfl⟩)
    (by decide) (by decide)

theorem find?_fst_of_mem_nodup {β : Type} (l : List (String × β))
    (hnd : (l.map (fun p => p.1)).Nodup) (p : String × β) (hp : p ∈ l) :
    l.find? (fun q => q.1 = p.1) = some p := by
  induction l with
  | nil => cases hp
  | cons a l ih =>
    simp only [List.map_cons, List.nodup_cons] at hnd
    rcases List.mem_cons.mp hp with h | h
    · subst h
      rw [List.find?_cons_of_pos _ (by simp)]
    · have hne : a.1 ≠ p.1 := by
        intro hc
        exact hnd.1 (hc ▸ List.mem_map.mpr ⟨p, h, rfl⟩)
      rw [List.find?_cons_of_neg _ (by simp [hne])]
      exact ih hnd.2 h

theorem mGet_of_nodup (l : List (String × Option Val))
    (hnd : (l.map (fun p => p.1)).Nodup) (p : String × Option Val) (hp : p ∈ l) :
    mGet l p.1 = p.2 := by
  have hndr : (l.reverse.map (fun p => p.1)).Nodup := by
    rw [show l.reverse.map (fun p : String × Option Val => p.1) =
        (l.map (fun p => p.1)).reverse from List.map_reverse _ _]
    exact List.nodup_reverse.mpr hnd
  rw [mGet, find?_fst_of_mem_nodup l.reverse hndr p (List.mem_reverse.mpr hp)]

theorem foldl_setIns_eq_append : ∀ (l acc : List String), (acc ++ l).Nodup →
    l.foldl setIns acc = acc ++ l := by
  intro l
  induction l with
  | nil => intro acc _; simp
  | cons x xs ih =>
    intro acc h
    rw [List.foldl_cons, setIns]
    have hx : x ∉ acc := by
      intro hc
      exact (List.disjoint_of_nodup_append h) hc (List.mem_cons_self _ _)
    rw [if_neg hx, ih (acc ++ [x]) (by simpa [List.append_assoc] using h)]
    simp

theorem dedupFirst_eq_self (l : List String) (h : l.Nodup) : dedupFirst l = l := by
  rw [dedupFirst, foldl_setIns_eq_append l [] (by simpa using h)]
  simp

theorem mapEntries_eq_self (l : List (String × Option Val))
    (hnd : (l.map (fun p => p.1)).Nodup) : mapEntries l = l := by
  rw [mapEntries, dedupFirst_eq_self _ hnd, List.map_map]
  have hcongr : ∀ p ∈ l, ((fun k => (k, mGet l k)) ∘ (fun p => p.1)) p = p := by
    intro p hp
    simp only [Function.comp]
    rw [mGet_of_nodup l hnd p hp]
  rw [List.map_congr_left hcongr]
  exact List.map_id' ..

theorem lookupKeys_default (cfg : Config) (w : Doc) :
    lookupKeys cfg {} w =
      cfg.lookups.map (fun e => (bkt cfg e.1 (vStr (w e.2)), w "id")) := rfl

theorem entry_inj (cfg : Config) (hwf : WFConfig cfg) {e e' : String × String}
    (he : e ∈ cfg.lookups) (he' : e' ∈ cfg.lookups) {v v' : String}
    (h : bkt cfg e.1 v = bkt cfg e'.1 v') : e = e' ∧ v = v' := by
  obtain ⟨h1, h2⟩ := bkt_inj cfg (hwf.2 e he) (hwf.2 e' he') h
  exact ⟨List.inj_on_of_nodup_map hwf.1 he he' h1, h2⟩

theorem lookupKeys_keys_nodup (cfg : Config) (hwf : WFConfig cfg) (w : Doc) :
    ((lookupKeys cfg {} w).map (fun p => p.1)).Nodup := by
  rw [lookupKeys_default, List.map_map]
  refine List.Nodup.map_on ?_ (List.Nodup.of_map _ hwf.1)
  intro e he e' he' heq
  simp only [Function.comp] at heq
  exact (entry_inj cfg hwf he he' heq).1

theorem bkt_mem_lookupKeys_iff (cfg : Config) (hwf : WFConfig cfg) (w : Doc)
    (e : String × String) (he : e ∈ cfg.lookups) (v : String) :
    bkt cfg e.1 v ∈ cfg.lookups.map (fun e' => bkt cfg e'.1 (vStr (w e'.2))) ↔
      vStr (w e.2) = v := by
  constructor
  · intro hmem
    obtain ⟨e', he', heq⟩ := List.mem_map.mp hmem
    obtain ⟨hee, hv⟩ := entry_inj cfg hwf he' he heq
    subst hee
    exact hv
  · intro hv
    exact List.mem_map.mpr ⟨e, he, by rw [hv]⟩

theorem mGet_const (l : List (String × Option Val)) (iv : Option Val)
    (h : ∀ p ∈ l, p.2 = iv) (k : String) :
    mGet l k = if k ∈ l.map (fun p => p.1) then iv else none := by
  rw [mGet]
  cases hf : l.reverse.find? (fun p => p.1 = k) with
  | none =>
    have hnone : ∀ p ∈ l.reverse, ¬ (p.1 = k) := by
      intro p hp
      have := List.find?_eq_none.mp hf p hp
      simpa using this
    rw [if_neg]
    intro hmem
    obtain ⟨p, hp, hpk⟩ := List.mem_map.mp hmem
    exact hnone p (List.mem_reverse.mpr hp) hpk
  | some p =>
    have hp := List.mem_of_find?_eq_some hf
    have hpk := List.find?_some hf
    simp only [decide_eq_true_eq] at hpk
    rw [if_pos (List.mem_map.mpr ⟨p, List.mem_reverse.mp hp, hpk⟩)]
    exact h p (List.mem_reverse.mp hp)

theorem update_diff_remove (cfg : Config) (hwf : WFConfig cfg) (dA dB : Doc) (s : String)
    (hA : dA "id" = some (Val.str s)) (hB : dB "id" = some (Val.str s)) :
    (mapEntries (lookupKeys cfg {} dA)).filter
        (fun p => mGet (mapEntries (lookupKeys cfg {} dB)) p.1 ≠ p.2) =
      (cfg.lookups.filter (fun e => vStr (dA e.2) ≠ vStr (dB e.2))).map
        (fun e => (bkt cfg e.1 (vStr (dA e.2)), some (Val.str s))) := by
  rw [mapEntries_eq_self _ (lookupKeys_keys_nodup cfg hwf dA),
    mapEntries_eq_self _ (lookupKeys_keys_nodup cfg hwf dB),
    lookupKeys_default, lookupKeys_default, hA, hB, List.filter_map]
  refine congrArg _ (List.filter_congr ?_)
  intro e he
  simp only [Function.comp]
  refine decide_eq_decide.mpr ?_
  have hconst : ∀ p ∈ cfg.lookups.map
      (fun e' => (bkt cfg e'.1 (vStr (dB e'.2)), (some (Val.str s) : Option Val))),
      p.2 = some (Val.str s) := by
    intro p hp
    obtain ⟨e', _, hpe⟩ := List.mem_map.mp hp
    rw [← hpe]
  rw [mGet_const _ (some (Val.str s)) hconst]
  rw [show (cfg.lookups.map
      (fun e' => (bkt cfg e'.1 (vStr (dB e'.2)), (some (Val.str s) : Option Val)))).map
        (fun p => p.1) =
      cfg.lookups.map (fun e' => bkt cfg e'.1 (vStr (dB e'.2))) from by
    rw [List.map_map]; rfl]
  by_cases hmem : vStr (dB e.2) = vStr (dA e.2)
  · rw [if_pos ((bkt_mem_lookupKeys_iff cfg hwf dB e he _).mpr hmem)]
    simp [hmem.symm]
  · rw [if_neg (fun hc => hmem ((bkt_mem_lookupKeys_iff cfg hwf dB e he _).mp hc))]
    constructor
    · intro _; exact fun h => hmem h.symm
    · intro _; simp

theorem foldl_zrem_zsets_mem (ps : List (String × Option Val)) (st : RedisState)
    (k : String) (v : Option Val) (hnd : (ps.map (fun p => p.1)).Nodup)
    (hmem : (k, v) ∈ ps) :
    (ps.foldl (fun s p => setZ s p.1 (zrem (s.zsets p.1) (vStr p.2))) st).zsets k =
      zrem (st.zsets k) (vStr v) :=
  foldl_setZ_zsets_mem (fun z w => zrem z (vStr w)) ps st k v hnd hmem

theorem foldl_zadd_zsets_mem (score : Nat) (ps : List (String × Option Val))
    (st : RedisState) (k : String) (v : Option Val)
    (hnd : (ps.map (fun p => p.1)).Nodup) (hmem : (k, v) ∈ ps) :
    (ps.foldl (fun s p => setZ s p.1 (zadd (s.zsets p.1) (vStr p.2) score)) st).zsets k =
      zadd (st.zsets k) (vStr v) score :=
  foldl_setZ_zsets_mem (fun z w => zadd z (vStr w) score) ps st k v hnd hmem

theorem changedBuckets_nodup (cfg : Config) (hwf : WFConfig cfg) (a b : Doc) :
    (changedBuckets cfg a b).Nodup := by
  rw [changedBuckets]
  refine List.Nodup.map_on ?_ ((List.Nodup.of_map _ hwf.1).filter _)
  intro e he e' he' heq
  exact (entry_inj cfg hwf (List.mem_of_mem_filter he)
    (List.mem_of_mem_filter he') heq).1

theorem changedBuckets_disjoint (cfg : Config) (hwf : WFConfig cfg) (a b : Doc)
    (k : String) (ha : k ∈ changedBuckets cfg a b) (hb : k ∈ changedBuckets cfg b a) :
    False := by
  rw [changedBuckets] at ha hb
  obtain ⟨e, he, hek⟩ := List.mem_map.mp ha
  obtain ⟨e', he', hek'⟩ := List.mem_map.mp hb
  obtain ⟨hee, hv⟩ := entry_inj cfg hwf (List.mem_of_mem_filter he)
    (List.mem_of_mem_filter he') (hek.trans hek'.symm)
  subst hee
  have hch := List.of_mem_filter he
  simp only [decide_eq_true_eq] at hch
  exact hch hv

/-- C4: a successful `update` removes the id exactly from the lookup-index
buckets of the previous document whose field value changed, adds it
exactly to the new-value buckets of those changed fields, and issues no
write to any other ordered set (untouched buckets, including the primary
index, are left untouched). -/
theorem claim4_update_index_diff (cfg : Config) (st : RedisState) (value : Doc)
    (now : Nat) (s : String) (d : Doc) (hwf : WFConfig cfg)
    (hid : value "id" = some (Val.str s)) (hs : s ≠ "")
    (hdoc : st.docs (valueKey cfg s) = some d)
    (hlive : truthyVal (d "deletedAt") = false)
    (hdid : d "id" = some (Val.str s)) :
    (∀ k, k ∉ changedBuckets cfg d
        (fun f => if f = "updatedAt" then some (Val.num now) else value f) →
      k ∉ changedBuckets cfg
        (fun f => if f = "updatedAt" then some (Val.num now) else value f) d →
      (update cfg {} st value now).2.1.zsets k = st.zsets k) ∧
    (∀ k, k ∈ changedBuckets cfg d
        (fun f => if f = "updatedAt" then some (Val.num now) else value f) →
      (update cfg {} st value now).2.1.zsets k = zrem (st.zsets k) s) ∧
    (∀ k, k ∈ changedBuckets cfg
        (fun f => if f = "updatedAt" then some (Val.num now) else value f) d →
      (update cfg {} st value now).2.1.zsets k =
        zadd (st.zsets k) s
          (if truthyVal (value "createdAt") then vNum (value "createdAt") else now)) := by
  have htr : truthyVal (value "id") = true := by simp [truthyVal, hid, hs]
  have hvs : vStr (value "id") = s := by rw [hid]; rfl
  have hget : get cfg st s false = some d := get_live cfg st s false d hdoc hlive
  have huid : (fun f => if f = "updatedAt" then some (Val.num now) else value f) "id" =
      some (Val.str s) := by simpa using hid
  have hrem := update_diff_remove cfg hwf d
    (fun f => if f = "updatedAt" then some (Val.num now) else value f) s hdid huid
  have hadd := update_diff_remove cfg hwf
    (fun f => if f = "updatedAt" then some (Val.num now) else value f) d s huid hdid
  have hRkeys : ((cfg.lookups.filter (fun e => vStr (d e.2) ≠
        vStr ((fun f => if f = "updatedAt" then some (Val.num now) else value f) e.2))).map
        (fun e => (bkt cfg e.1 (vStr (d e.2)), (some (Val.str s) : Option Val)))).map
        (fun p => p.1) =
      changedBuckets cfg d (fun f => if f = "updatedAt" then some (Val.num now) else value f) := by
    rw [List.map_map, changedBuckets]; rfl
  have hAkeys : ((cfg.lookups.filter (fun e =>
        vStr ((fun f => if f = "updatedAt" then some (Val.num now) else value f) e.2) ≠
        vStr (d e.2))).map
        (fun e => (bkt cfg e.1
          (vStr ((fun f => if f = "updatedAt" then some (Val.num now) else value f) e.2)),
          (some (Val.str s) : Option Val)))).map (fun p => p.1) =
      changedBuckets cfg (fun f => if f = "updatedAt" then some (Val.num now) else value f) d := by
    rw [List.map_map, changedBuckets]; rfl
  refine ⟨?_, ?_, ?_⟩
  · intro k hkr hka
    simp only [update, htr, hvs, hget, Bool.true_eq_false, if_false]
    rw [hrem, hadd]
    refine (foldl_setZ_zsets_nmem _ _ _ _ (by rw [hAkeys]; exact hka)).trans ?_
    simp only [setDoc]
    exact foldl_setZ_zsets_nmem _ _ _ _ (by rw [hRkeys]; exact hkr)
  · intro k hkr
    have hka : k ∉ changedBuckets cfg
        (fun f => if f = "updatedAt" then some (Val.num now) else value f) d :=
      fun hka => changedBuckets_disjoint cfg hwf _ _ k hkr hka
    simp only [update, htr, hvs, hget, Bool.true_eq_false, if_false]
    rw [hrem, hadd]
    refine (foldl_setZ_zsets_nmem _ _ _ _ (by rw [hAkeys]; exact hka)).trans ?_
    simp only [setDoc]
    have hmemp : (k, (some (Val.str s) : Option Val)) ∈
        (cfg.lookups.filter (fun e => vStr (d e.2) ≠
          vStr ((fun f => if f = "updatedAt" then some (Val.num now) else value f) e.2))).map
          (fun e => (bkt cfg e.1 (vStr (d e.2)), (some (Val.str s) : Option Val))) := by
      rw [changedBuckets] at hkr
      obtain ⟨e, he, hek⟩ := List.mem_map.mp hkr
      exact List.mem_map.mpr ⟨e, he, by rw [hek]⟩
    exact foldl_zrem_zsets_mem _ _ _ _ (by rw [hRkeys]; exact changedBuckets_nodup cfg hwf _ _) hmemp
  · intro k hka
    have hkr : k ∉ changedBuckets cfg d
        (fun f => if f = "updatedAt" then some (Val.num now) else value f) :=
      fun hkr => changedBuckets_disjoint cfg hwf _ _ k hkr hka
    simp only [update, htr, hvs, hget, Bool.true_eq_false, if_false]
    rw [hrem, hadd]
    have hmemp : (k, (some (Val.str s) : Option Val)) ∈
        (cfg.lookups.filter (fun e =>
          vStr ((fun f => if f = "updatedAt" then some (Val.num now) else value f) e.2) ≠
          vStr (d e.2))).map
          (fun e => (bkt cfg e.1
            (vStr ((fun f => if f = "updatedAt" then some (Val.num now) else value f) e.2)),
            (some (Val.str s) : Option Val))) := by
      rw [changedBuckets] at hka
      obtain ⟨e, he, hek⟩ := List.mem_map.mp hka
      exact List.mem_map.mpr ⟨e, he, by rw [hek]⟩
    refine (foldl_zadd_zsets_mem _ _ _ _ _
      (by rw [hAkeys]; exact changedBuckets_nodup cfg hwf _ _) hmemp).trans ?_
    simp only [setDoc]
    rw [foldl_setZ_zsets_nmem _ _ _ _ (by rw [hRkeys]; exact hkr)]
    rfl


theorem claim4_witness :
    (∀ k, k ∉ changedBuckets cfgT (createdValueOf v1 1 "g1")
        (fun f => if f = "updatedAt" then some (Val.num 8) else
          docOf [("id", Val.str "r1"), ("createdAt", Val.num 1),
            ("createdBy", Val.str "U1"), ("category", Val.str "C2")] f) →
      k ∉ changedBuckets cfgT
        (fun f => if f = "updatedAt" then some (Val.num 8) else
          docOf [("id", Val.str "r1"), ("createdAt", Val.num 1),
            ("createdBy", Val.str "U1"), ("category", Val.str "C2")] f)
        (createdValueOf v1 1 "g1") →
      (update cfgT {} st3 (docOf [("id", Val.str "r1"), ("createdAt", Val.num 1),
        ("createdBy", Val.str "U1"), ("category", Val.str "C2")]) 8).2.1.zsets k =
        st3.zsets k) ∧
    (∀ k, k ∈ changedBuckets cfgT (createdValueOf v1 1 "g1")
        (fun f => if f = "updatedAt" then some (Val.num 8) else
          docOf [("id", Val.str "r1"), ("createdAt", Val.num 1),
            ("createdBy", Val.str "U1"), ("category", Val.str "C2")] f) →
      (update cfgT {} st3 (docOf [("id", Val.str "r1"), ("createdAt", Val.num 1),
        ("createdBy", Val.str "U1"), ("category", Val.str "C2")]) 8).2.1.zsets k =
        zrem (st3.zsets k) "r1") ∧
    (∀ k, k ∈ changedBuckets cfgT
        (fun f => if f = "updatedAt" then some (Val.num 8) else
          docOf [("id", Val.str "r1"), ("createdAt", Val.num 1),
            ("createdBy", Val.str "U1"), ("category", Val.str "C2")] f)
        (createdValueOf v1 1 "g1") →
      (update cfgT {} st3 (docOf [("id", Val.str "r1"), ("createdAt", Val.num 1),
        ("createdBy", Val.str "U1"), ("category", Val.str "C2")]) 8).2.1.zsets k =
        zadd (st3.zsets k) "r1"
          (if truthyVal (docOf [("id", Val.str "r1"), ("createdAt", Val.num 1),
              ("createdBy", Val.str "U1"), ("category", Val.str "C2")] "createdAt")
            then vNum (docOf [("id", Val.str "r1"), ("createdAt", Val.num 1),
              ("createdBy", Val.str "U1"), ("category", Val.str "C2")] "createdAt")
            else 8)) :=
  claim4_update_index_diff cfgT st3
    (docOf [("id", Val.str "r1"), ("createdAt", Val.num 1),
      ("createdBy", Val.str "U1"), ("category", Val.str "C2")]) 8 "r1"
    (createdValueOf v1 1 "g1")
    (by
      refine ⟨by decide, ?_⟩
      intro p hp
      simp only [cfgT, List.mem_cons, List.not_mem_nil, or_false] at hp
      rcases hp with h | h <;> subst h <;> decide)
    rfl (by decide) rfl (by decide) (by decide)

theorem createId_eq (value : Doc) (now : Nat) (genId : String) :
    vStr (createdValueOf value now genId "id") = createId value genId := by
  rw [createdValueOf, createId]
  cases value "id" with
  | none => rfl
  | some v => rfl

theorem create_docs (cfg : Config) (st : RedisState) (value : Doc) (now : Nat)
    (genId : String) (j : String) :
    (create cfg {} st value now genId).2.1.docs (vk cfg j) =
      if j = createId value genId then some (createdValueOf value now genId)
      else st.docs (vk cfg j) := by
  simp only [create]
  rw [foldl_setZ_docs]
  dsimp only [setZ, setDoc]
  simp only [Bool.false_eq_true, if_false]
  by_cases hj : j = createId value genId
  · rw [if_pos (show vk cfg j = valueKey cfg (vStr (createdValueOf value now genId "id")) by
      rw [hj]
      exact congrArg (valueKey cfg) (createId_eq value now genId).symm), if_pos hj]
  · rw [if_neg (show ¬(vk cfg j = valueKey cfg (vStr (createdValueOf value now genId "id")))
        from fun hc => hj ((vk_inj cfg hc).trans (createId_eq value now genId))),
      if_neg hj]

theorem create_zscore_other (cfg : Config) (st : RedisState) (value : Doc) (now : Nat)
    (genId : String) (k m : String) (hm : m ≠ createId value genId) :
    zscore ((create cfg {} st value now genId).2.1.zsets k) m = zscore (st.zsets k) m := by
  have hm' : m ≠ vStr (createdValueOf value now genId "id") := by
    rw [createId_eq value now genId]; exact hm
  simp only [create]
  rw [foldl_setZ_zscore_other
      (fun z v => zadd z (vStr v) (vNum (createdValueOf value now genId "createdAt")))
      (fun z v m' hmv => zscore_zadd_ne z (vStr v) m' _ (hmv ("", v) rfl)) _ _ _ _ ?_]
  · dsimp only [setZ, setDoc]
    simp only [Bool.false_eq_true, if_false]
    by_cases hk : k = cfg.setKey
    · subst hk
      rw [if_pos rfl]
      exact zscore_zadd_ne _ _ _ _ hm'
    · rw [if_neg hk]
  · intro p hp
    rw [lookupKeys_default] at hp
    obtain ⟨e, _, hpe⟩ := List.mem_map.mp hp
    rw [← hpe]
    exact hm'

theorem create_zsets_bucket (cfg : Config) (hwf : WFConfig cfg) (st : RedisState)
    (value : Doc) (now : Nat) (genId : String) (e : String × String)
    (he : e ∈ cfg.lookups) :
    (create cfg {} st value now genId).2.1.zsets
        (bkt cfg e.1 (vStr (createdValueOf value now genId e.2))) =
      zadd (st.zsets (bkt cfg e.1 (vStr (createdValueOf value now genId e.2))))
        (createId value genId) (vNum (createdValueOf value now genId "createdAt")) := by
  simp only [create]
  rw [foldl_zadd_zsets_mem _ _ _ _ (createdValueOf value now genId "id")
    (lookupKeys_keys_nodup cfg hwf _)
    (by
      rw [lookupKeys_default]
      exact List.mem_map.mpr ⟨e, he, rfl⟩)]
  dsimp only [setZ, setDoc]
  simp only [Bool.false_eq_true, if_false]
  rw [if_neg (bkt_ne_setKey cfg e.1 _), createId_eq value now genId]

theorem create_zsets_other (cfg : Config) (st : RedisState) (value : Doc) (now : Nat)
    (genId : String) (k : String)
    (hk1 : k ∉ (lookupKeys cfg {} (createdValueOf value now genId)).map (fun p => p.1))
    (hk2 : k ≠ cfg.setKey) :
    (create cfg {} st value now genId).2.1.zsets k = st.zsets k := by
  simp only [create]
  rw [foldl_setZ_zsets_nmem _ _ _ _ hk1]
  dsimp only [setZ, setDoc]
  simp only [Bool.false_eq_true, if_false]
  rw [if_neg hk2]

theorem inv_create (cfg : Config) (hwf : WFConfig cfg) (st : RedisState) (value : Doc)
    (now : Nat) (genId : String) (hok : CreateOk cfg st value now genId)
    (hinv : Inv cfg st) : Inv cfg (create cfg {} st value now genId).2.1 := by
  obtain ⟨hokid, hokca, hoknow, hfresh⟩ := hok
  have hcvid : createdValueOf value now genId "id" =
      some (Val.str (createId value genId)) := by
    rw [createdValueOf, createId]
    rcases hokid with h | ⟨s, h⟩
    · rw [h]; rfl
    · rw [h]; rfl
  have hcvca : ∃ c, createdValueOf value now genId "createdAt" = some (Val.num c) ∧
      0 < c := by
    rw [createdValueOf]
    rcases hokca with h | ⟨c, h, hc⟩
    · rw [h]; exact ⟨now, rfl, hoknow⟩
    · rw [h]; exact ⟨c, rfl, hc⟩
  obtain ⟨c, hca, hcpos⟩ := hcvca
  have hvnum : vNum (createdValueOf value now genId "createdAt") = c := by
    rw [hca]; rfl
  constructor
  · -- docId
    intro j e hdoc
    rw [create_docs] at hdoc
    by_cases hj : j = createId value genId
    · rw [if_pos hj] at hdoc
      rw [← Option.some.inj hdoc, hcvid, hj]
    · rw [if_neg hj] at hdoc
      exact hinv.docId j e hdoc
  · -- docCreated
    intro j e hdoc
    rw [create_docs] at hdoc
    by_cases hj : j = createId value genId
    · rw [if_pos hj] at hdoc
      exact ⟨c, by rw [← Option.some.inj hdoc, hca], hcpos⟩
    · rw [if_neg hj] at hdoc
      exact hinv.docCreated j e hdoc
  · -- memSound
    intro j ln fld v sc hlk hsc
    by_cases hj : j = createId value genId
    · subst hj
      by_cases hbkt : vStr (createdValueOf value now genId fld) = v
      · rw [← hbkt, create_zsets_bucket cfg hwf st value now genId (ln, fld) hlk,
          zscore_zadd_self] at hsc
        refine ⟨createdValueOf value now genId, ?_, hbkt, ?_⟩
        · rw [create_docs, if_pos rfl]
        · rw [hca, ← Option.some.inj hsc, hvnum]
      · rw [create_zsets_other cfg st value now genId _ ?_ (bkt_ne_setKey cfg ln v)] at hsc
        · obtain ⟨d0, hd0, -⟩ := hinv.memSound _ ln fld v sc hlk hsc
          exact absurd hd0 (by rw [hfresh]; exact fun hc => Option.noConfusion hc)
        · intro hmem
          rw [lookupKeys_default] at hmem
          obtain ⟨p, hp, hpk⟩ := List.mem_map.mp hmem
          obtain ⟨e', he', hpe⟩ := List.mem_map.mp hp
          rw [← hpe] at hpk
          simp only at hpk
          obtain ⟨hee, hv⟩ := entry_inj cfg hwf he' hlk hpk
          rw [hee] at hv
          exact hbkt hv
    · rw [create_zscore_other cfg st value now genId _ j hj] at hsc
      obtain ⟨d0, hd0, hfld, hca0⟩ := hinv.memSound j ln fld v sc hlk hsc
      refine ⟨d0, ?_, hfld, hca0⟩
      rw [create_docs, if_neg hj]
      exact hd0
  · -- memComplete
    intro j e ln fld hdoc hlive hlk
    rw [create_docs] at hdoc
    by_cases hj : j = createId value genId
    · rw [if_pos hj] at hdoc
      rw [← Option.some.inj hdoc]
      subst hj
      rw [create_zsets_bucket cfg hwf st value now genId (ln, fld) hlk, zscore_zadd_self]
    · rw [if_neg hj] at hdoc
      rw [create_zscore_other cfg st value now genId _ j hj]
      exact hinv.memComplete j e ln fld hdoc hlive hlk

theorem inv_delete (cfg : Config) (hwf : WFConfig cfg) (st : RedisState) (id : String)
    (hard : Bool) (now : Nat) (hnow : 0 < now) (hinv : Inv cfg st) :
    Inv cfg (delete cfg { hardDelete := hard } st id now).2.1 := by
  by_cases hid : id = ""
  · simpa only [delete, if_pos hid] using hinv
  cases hdoc : st.docs (valueKey cfg id) with
  | none =>
    have hget : get cfg st id true = none := get_absent cfg st id true hdoc
    have hdocs : ∀ j, (delete cfg { hardDelete := hard } st id now).2.1.docs (vk cfg j) =
        st.docs (vk cfg j) := by
      intro j
      rw [delete_state_docs cfg _ st id now hid]
      by_cases hj : j = id
      · subst hj
        by_cases hh : ({ hardDelete := hard } : Opts).hardDelete
        · rw [if_pos hh]
          simp only [removeDoc]
          rw [if_pos (show vk cfg j = valueKey cfg j from rfl)]
          exact hdoc.symm
        · rw [if_neg hh]
          simp only [patchField]
          rw [if_pos (show vk cfg j = valueKey cfg j from rfl), hdoc]
          simp only [Option.map_none']
          exact hdoc.symm
      · have hne : vk cfg j ≠ valueKey cfg id := fun hc => hj (vk_inj cfg hc)
        by_cases hh : ({ hardDelete := hard } : Opts).hardDelete
        · rw [if_pos hh]
          simp only [removeDoc]
          rw [if_neg hne]
        · rw [if_neg hh]
          simp only [patchField]
          rw [if_neg hne]
    have hzs : ∀ k, k ≠ cfg.setKey →
        (delete cfg { hardDelete := hard } st id now).2.1.zsets k = st.zsets k := by
      intro k hk
      simp only [delete, if_neg hid, hget]
      dsimp only [setZ]
      rw [List.foldl_nil]
      dsimp only
      rw [if_neg hk]
      by_cases hh : hard
      · rw [if_pos hh]
        rfl
      · rw [if_neg hh]
        rfl
    constructor
    · intro j e hd
      rw [hdocs] at hd
      exact hinv.docId j e hd
    · intro j e hd
      rw [hdocs] at hd
      exact hinv.docCreated j e hd
    · intro j ln fld v sc hlk hsc
      rw [hzs _ (bkt_ne_setKey cfg ln v)] at hsc
      obtain ⟨d0, hd0, hfld, hca0⟩ := hinv.memSound j ln fld v sc hlk hsc
      exact ⟨d0, by rw [hdocs]; exact hd0, hfld, hca0⟩
    · intro j e ln fld hd hlive hlk
      rw [hdocs] at hd
      rw [hzs _ (bkt_ne_setKey cfg ln _)]
      exact hinv.memComplete j e ln fld hd hlive hlk
  | some d =>
    have hdid : d "id" = some (Val.str id) := hinv.docId id d hdoc
    have hget : get cfg st id true = some d := get_deleted_true cfg st id d hdoc
    have hlkd : lookupKeys cfg { hardDelete := hard } d =
        cfg.lookups.map (fun e => (bkt cfg e.1 (vStr (d e.2)), d "id")) := rfl
    have hdocs : ∀ j, (delete cfg { hardDelete := hard } st id now).2.1.docs (vk cfg j) =
        if j = id then
          (if hard then none
           else some (fun f => if f = "deletedAt" then some (Val.num now) else d f))
        else st.docs (vk cfg j) := by
      intro j
      rw [delete_state_docs cfg _ st id now hid]
      by_cases hj : j = id
      · subst hj
        rw [if_pos rfl]
        by_cases hh : hard
        · rw [if_pos hh, if_pos hh]
          simp only [removeDoc]
          rw [if_pos (show vk cfg j = valueKey cfg j from rfl)]
        · rw [if_neg hh, if_neg hh]
          simp only [patchField]
          rw [if_pos (show vk cfg j = valueKey cfg j from rfl), hdoc]
          rfl
      · have hne : vk cfg j ≠ valueKey cfg id := fun hc => hj (vk_inj cfg hc)
        rw [if_neg hj]
        by_cases hh : hard
        · rw [if_pos hh]
          simp only [removeDoc]
          rw [if_neg hne]
        · rw [if_neg hh]
          simp only [patchField]
          rw [if_neg hne]
    have hzother : ∀ k m, m ≠ id →
        zscore ((delete cfg { hardDelete := hard } st id now).2.1.zsets k) m =
          zscore (st.zsets k) m := by
      intro k m hm
      simp only [delete, if_neg hid, hget]
      rw [foldl_setZ_zscore_other (fun z v => zrem z (vStr v))
        (fun z v m' hmv => zscore_zrem_ne z (vStr v) m' (hmv ("", v) rfl)) _ _ _ _ ?_]
      · dsimp only [setZ]
        by_cases hk : k = cfg.setKey
        · subst hk
          rw [if_pos rfl, zscore_zrem_ne _ _ _ hm]
          by_cases hh : ({ hardDelete := hard } : Opts).hardDelete
          · rw [if_pos hh]
            rfl
          · rw [if_neg hh]
            rfl
        · rw [if_neg hk]
          by_cases hh : ({ hardDelete := hard } : Opts).hardDelete
          · rw [if_pos hh]
            rfl
          · rw [if_neg hh]
            rfl
      · intro p hp
        rw [hlkd] at hp
        obtain ⟨e, _, hpe⟩ := List.mem_map.mp hp
        rw [← hpe]
        simp only [hdid]
        exact hm
    have hzid : ∀ ln v, (∃ fld, (ln, fld) ∈ cfg.lookups) →
        zscore ((delete cfg { hardDelete := hard } st id now).2.1.zsets (bkt cfg ln v))
          id = none := by
      intro ln v hlk
      obtain ⟨fld, hlk⟩ := hlk
      by_cases hbl : bkt cfg ln v ∈
          (cfg.lookups.map (fun e => (bkt cfg e.1 (vStr (d e.2)), d "id"))).map
            (fun p => p.1)
      · obtain ⟨p, hp, hpk⟩ := List.mem_map.mp hbl
        simp only [delete, if_neg hid, hget]
        rw [show bkt cfg ln v = p.1 from hpk.symm]
        have hpmem : (p.1, p.2) ∈ lookupKeys cfg { hardDelete := hard } d := by
          rw [hlkd]
          exact hp
        have hnd : ((lookupKeys cfg { hardDelete := hard } d).map
            (fun p => p.1)).Nodup := lookupKeys_keys_nodup cfg hwf d
        rw [foldl_zrem_zsets_mem _ _ _ p.2 hnd hpmem]
        have hp2 : p.2 = d "id" := by
          obtain ⟨e, _, hpe⟩ := List.mem_map.mp hp
          rw [← hpe]
        rw [hp2, hdid]
        exact zscore_zrem_self _ _
      · have hunch : (delete cfg { hardDelete := hard } st id now).2.1.zsets
            (bkt cfg ln v) = st.zsets (bkt cfg ln v) := by
          simp only [delete, if_neg hid, hget]
          rw [foldl_setZ_zsets_nmem _ _ _ _ (by rw [hlkd]; exact hbl)]
          dsimp only [setZ]
          rw [if_neg (bkt_ne_setKey cfg ln v)]
          by_cases hh : ({ hardDelete := hard } : Opts).hardDelete
          · rw [if_pos hh]
            rfl
          · rw [if_neg hh]
            rfl
        rw [hunch]
        cases hsc : zscore (st.zsets (bkt cfg ln v)) id with
        | none => rfl
        | some sc =>
          obtain ⟨d0, hd0, hfld, -⟩ := hinv.memSound id ln fld v sc hlk hsc
          have hd0' : some d = some d0 := hdoc.symm.trans hd0
          rw [← Option.some.inj hd0'] at hfld
          exact absurd (List.mem_map.mpr
            ⟨(bkt cfg ln (vStr (d fld)), d "id"),
             List.mem_map.mpr ⟨(ln, fld), hlk, rfl⟩, by rw [hfld]⟩) hbl
    constructor
    · intro j e hd
      rw [hdocs] at hd
      by_cases hj : j = id
      · rw [if_pos hj] at hd
        by_cases hh : hard
        · rw [if_pos hh] at hd
          cases hd
        · rw [if_neg hh] at hd
          rw [← Option.some.inj hd, hj]
          exact hdid
      · rw [if_neg hj] at hd
        exact hinv.docId j e hd
    · intro j e hd
      rw [hdocs] at hd
      by_cases hj : j = id
      · rw [if_pos hj] at hd
        by_cases hh : hard
        · rw [if_pos hh] at hd
          cases hd
        · rw [if_neg hh] at hd
          obtain ⟨c, hc, hcpos⟩ := hinv.docCreated id d hdoc
          exact ⟨c, by rw [← Option.some.inj hd]; exact hc, hcpos⟩
      · rw [if_neg hj] at hd
        exact hinv.docCreated j e hd
    · intro j ln fld v sc hlk hsc
      by_cases hj : j = id
      · subst hj
        rw [hzid ln v ⟨fld, hlk⟩] at hsc
        cases hsc
      · rw [hzother _ _ hj] at hsc
        obtain ⟨d0, hd0, hfld, hca0⟩ := hinv.memSound j ln fld v sc hlk hsc
        refine ⟨d0, ?_, hfld, hca0⟩
        rw [hdocs, if_neg hj]
        exact hd0
    · intro j e ln fld hd hlive hlk
      rw [hdocs] at hd
      by_cases hj : j = id
      · rw [if_pos hj] at hd
        by_cases hh : hard
        · rw [if_pos hh] at hd
          cases hd
        · rw [if_neg hh] at hd
          rw [← Option.some.inj hd] at hlive
          simp only [truthyVal] at hlive
          exact absurd hlive (by simpa using Nat.pos_iff_ne_zero.mp hnow)
      · rw [if_neg hj] at hd
        rw [hzother _ _ hj]
        exact hinv.memComplete j e ln fld hd hlive hlk

theorem get_live_inv (cfg : Config) (st : RedisState) (id : String) (w : Doc)
    (h : get cfg st id false = some w) :
    st.docs (valueKey cfg id) = some w ∧ truthyVal (w "deletedAt") = false := by
  unfold get at h
  cases hd : st.docs (valueKey cfg id) with
  | none =>
    simp only [hd] at h
    cases h
  | some d =>
    simp only [hd] at h
    by_cases ht : truthyVal (d "deletedAt") = true
    · rw [if_pos (by simp [ht])] at h
      cases h
    · rw [if_neg (by simp [ht])] at h
      refine ⟨by rw [Option.some.inj h], ?_⟩
      rw [← Option.some.inj h]
      simpa using ht

theorem update_docs_char (cfg : Config) (st : RedisState) (value : Doc) (now : Nat)
    (s : String) (d : Doc) (hid : value "id" = some (Val.str s)) (hs : s ≠ "")
    (hget : get cfg st s false = some d) (j : String) :
    (update cfg {} st value now).2.1.docs (vk cfg j) =
      if j = s then some (fun k => if k = "updatedAt" then some (Val.num now) else value k)
      else st.docs (vk cfg j) := by
  have htr : truthyVal (value "id") = true := by simp [truthyVal, hid, hs]
  have hvs : vStr (value "id") = s := by rw [hid]; rfl
  simp only [update, htr, hvs, hget, Bool.true_eq_false, if_false]
  rw [foldl_setZ_docs]
  dsimp only [setDoc]
  rw [foldl_setZ_docs]
  by_cases hj : j = s
  · rw [if_pos (show vk cfg j = valueKey cfg s by rw [hj]; rfl), if_pos hj]
  · rw [if_neg (show ¬ vk cfg j = valueKey cfg s from fun hc => hj (vk_inj cfg hc)),
      if_neg hj]

theorem update_zsets_char (cfg : Config) (st : RedisState) (value : Doc)
    (now : Nat) (s : String) (d : Doc) (hwf : WFConfig cfg)
    (hid : value "id" = some (Val.str s)) (hs : s ≠ "")
    (hdoc : st.docs (valueKey cfg s) = some d)
    (hlive : truthyVal (d "deletedAt") = false)
    (hdid : d "id" = some (Val.str s)) :
    (∀ k, k ∉ changedBuckets cfg d
        (fun f => if f = "updatedAt" then some (Val.num now) else value f) →
      k ∉ changedBuckets cfg
        (fun f => if f = "updatedAt" then some (Val.num now) else value f) d →
      (update cfg {} st value now).2.1.zsets k = st.zsets k) ∧
    (∀ k, k ∈ changedBuckets cfg d
        (fun f => if f = "updatedAt" then some (Val.num now) else value f) →
      (update cfg {} st value now).2.1.zsets k = zrem (st.zsets k) s) ∧
    (∀ k, k ∈ changedBuckets cfg
        (fun f => if f = "updatedAt" then some (Val.num now) else value f) d →
      (update cfg {} st value now).2.1.zsets k =
        zadd (st.zsets k) s
          (if truthyVal (value "createdAt") then vNum (value "createdAt") else now)) := by
  have htr : truthyVal (value "id") = true := by simp [truthyVal, hid, hs]
  have hvs : vStr (value "id") = s := by rw [hid]; rfl
  have hget : get cfg st s false = some d := get_live cfg st s false d hdoc hlive
  have huid : (fun f => if f = "updatedAt" then some (Val.num now) else value f) "id" =
      some (Val.str s) := by simpa using hid
  have hrem := update_diff_remove cfg hwf d
    (fun f => if f = "updatedAt" then some (Val.num now) else value f) s hdid huid
  have hadd := update_diff_remove cfg hwf
    (fun f => if f = "updatedAt" then some (Val.num now) else value f) d s huid hdid
  have hRkeys : ((cfg.lookups.filter (fun e => vStr (d e.2) ≠
        vStr ((fun f => if f = "updatedAt" then some (Val.num now) else value f) e.2))).map
        (fun e => (bkt cfg e.1 (vStr (d e.2)), (some (Val.str s) : Option Val)))).map
        (fun p => p.1) =
      changedBuckets cfg d (fun f => if f = "updatedAt" then some (Val.num now) else value f) := by
    rw [List.map_map, changedBuckets]; rfl
  have hAkeys : ((cfg.lookups.filter (fun e =>
        vStr ((fun f => if f = "updatedAt" then some (Val.num now) else value f) e.2) ≠
        vStr (d e.2))).map
        (fun e => (bkt cfg e.1
          (vStr ((fun f => if f = "updatedAt" then some (Val.num now) else value f) e.2)),
          (some (Val.str s) : Option Val)))).map (fun p => p.1) =
      changedBuckets cfg (fun f => if f = "updatedAt" then some (Val.num now) else value f) d := by
    rw [List.map_map, changedBuckets]; rfl
  refine ⟨?_, ?_, ?_⟩
  · intro k hkr hka
    simp only [update, htr, hvs, hget, Bool.true_eq_false, if_false]
    rw [hrem, hadd]
    refine (foldl_setZ_zsets_nmem _ _ _ _ (by rw [hAkeys]; exact hka)).trans ?_
    simp only [setDoc]
    exact foldl_setZ_zsets_nmem _ _ _ _ (by rw [hRkeys]; exact hkr)
  · intro k hkr
    have hka : k ∉ changedBuckets cfg
        (fun f => if f = "updatedAt" then some (Val.num now) else value f) d :=
      fun hka => changedBuckets_disjoint cfg hwf _ _ k hkr hka
    simp only [update, htr, hvs, hget, Bool.true_eq_false, if_false]
    rw [hrem, hadd]
    refine (foldl_setZ_zsets_nmem _ _ _ _ (by rw [hAkeys]; exact hka)).trans ?_
    simp only [setDoc]
    have hmemp : (k, (some (Val.str s) : Option Val)) ∈
        (cfg.lookups.filter (fun e => vStr (d e.2) ≠
          vStr ((fun f => if f = "updatedAt" then some (Val.num now) else value f) e.2))).map
          (fun e => (bkt cfg e.1 (vStr (d e.2)), (some (Val.str s) : Option Val))) := by
      rw [changedBuckets] at hkr
      obtain ⟨e, he, hek⟩ := List.mem_map.mp hkr
      exact List.mem_map.mpr ⟨e, he, by rw [hek]⟩
    exact foldl_zrem_zsets_mem _ _ _ _ (by rw [hRkeys]; exact changedBuckets_nodup cfg hwf _ _) hmemp
  · intro k hka
    have hkr : k ∉ changedBuckets cfg d
        (fun f => if f = "updatedAt" then some (Val.num now) else value f) :=
      fun hkr => changedBuckets_disjoint cfg hwf _ _ k hkr hka
    simp only [update, htr, hvs, hget, Bool.true_eq_false, if_false]
    rw [hrem, hadd]
    have hmemp : (k, (some (Val.str s) : Option Val)) ∈
        (cfg.lookups.filter (fun e =>
          vStr ((fun f => if f = "updatedAt" then some (Val.num now) else value f) e.2) ≠
          vStr (d e.2))).map
          (fun e => (bkt cfg e.1
            (vStr ((fun f => if f = "updatedAt" then some (Val.num now) else value f) e.2)),
            (some (Val.str s) : Option Val))) := by
      rw [changedBuckets] at hka
      obtain ⟨e, he, hek⟩ := List.mem_map.mp hka
      exact List.mem_map.mpr ⟨e, he, by rw [hek]⟩
    refine (foldl_zadd_zsets_mem _ _ _ _ _
      (by rw [hAkeys]; exact changedBuckets_nodup cfg hwf _ _) hmemp).trans ?_
    simp only [setDoc]
    rw [foldl_setZ_zsets_nmem _ _ _ _ (by rw [hRkeys]; exact hkr)]
    rfl

theorem inv_update (cfg : Config) (hwf : WFConfig cfg) (st : RedisState) (value : Doc)
    (now : Nat) (hok : UpdateOk cfg st value) (hinv : Inv cfg st) :
    Inv cfg (update cfg {} st value now).2.1 := by
  obtain ⟨⟨s, hid⟩, hca⟩ := hok
  by_cases htr : truthyVal (value "id") = false
  · have hst : (update cfg {} st value now).2.1 = st := by
      simp only [update, if_pos htr]
    rw [hst]
    exact hinv
  · have htrue : truthyVal (value "id") = true := by
      cases hb : truthyVal (value "id") with
      | false => exact absurd hb htr
      | true => rfl
    have hs : s ≠ "" := by
      intro hc
      apply htr
      rw [hid, hc]
      decide
    have hvs : vStr (value "id") = s := by rw [hid]; rfl
    cases hget : get cfg st s false with
    | none =>
      have hst : (update cfg {} st value now).2.1 = st := by
        simp only [update, htrue, hvs, hget, Bool.true_eq_false, if_false]
      rw [hst]
      exact hinv
    | some d =>
      obtain ⟨hdoc, hlive⟩ := get_live_inv cfg st s d hget
      have hdid : d "id" = some (Val.str s) := hinv.docId s d hdoc
      have hcs : value "createdAt" = d "createdAt" := hca d (by rw [hid]; exact hdoc)
      obtain ⟨c, hcv, hcpos⟩ := hinv.docCreated s d hdoc
      have hchar := update_zsets_char cfg st value now s d hwf hid hs hdoc hlive hdid
      have hdocs := update_docs_char cfg st value now s d hid hs hget
      have htc : truthyVal (some (Val.num c)) = true := by
        simp [truthyVal]
        omega
      have hscore : (if truthyVal (value "createdAt") then vNum (value "createdAt")
          else now) = c := by
        rw [hcs, hcv, if_pos htc]
        rfl
      have hUc : ((fun f => if f = "updatedAt" then some (Val.num now) else value f)
          "createdAt") = some (Val.num c) := by
        show (if ("createdAt" : String) = "updatedAt" then some (Val.num now)
          else value "createdAt") = some (Val.num c)
        rw [if_neg (by decide), hcs, hcv]
      have hUid : ((fun f => if f = "updatedAt" then some (Val.num now) else value f)
          "id") = some (Val.str s) := by
        show (if ("id" : String) = "updatedAt" then some (Val.num now)
          else value "id") = some (Val.str s)
        rw [if_neg (by decide), hid]
      constructor
      · intro i d' hd'
        rw [hdocs i] at hd'
        by_cases hi : i = s
        · rw [if_pos hi] at hd'
          rw [← Option.some.inj hd', hUid, hi]
        · rw [if_neg hi] at hd'
          exact hinv.docId i d' hd'
      · intro i d' hd'
        rw [hdocs i] at hd'
        by_cases hi : i = s
        · rw [if_pos hi] at hd'
          refine ⟨c, ?_, hcpos⟩
          rw [← Option.some.inj hd', hUc]
        · rw [if_neg hi] at hd'
          exact hinv.docCreated i d' hd'
      · intro i ln fld v sc hlk hsc
        by_cases hi : i = s
        · subst hi
          by_cases hR : bkt cfg ln v ∈ changedBuckets cfg d
              (fun f => if f = "updatedAt" then some (Val.num now) else value f)
          · rw [hchar.2.1 _ hR, zscore_zrem_self] at hsc
            cases hsc
          · by_cases hA : bkt cfg ln v ∈ changedBuckets cfg
                (fun f => if f = "updatedAt" then some (Val.num now) else value f) d
            · rw [hchar.2.2 _ hA, zscore_zadd_self] at hsc
              have hscv : sc = c := by
                rw [← Option.some.inj hsc]
                exact hscore
              refine ⟨(fun f => if f = "updatedAt" then some (Val.num now) else value f),
                ?_, ?_, ?_⟩
              · rw [hdocs i, if_pos rfl]
              · rw [changedBuckets] at hA
                obtain ⟨e, he, hek⟩ := List.mem_map.mp hA
                obtain ⟨hee, hv⟩ := entry_inj cfg hwf (List.mem_of_mem_filter he) hlk hek
                rw [hee] at hv
                exact hv
              · rw [hUc, hscv]
            · rw [hchar.1 _ hR hA] at hsc
              obtain ⟨d0, hd0, hfld, hc0⟩ := hinv.memSound i ln fld v sc hlk hsc
              have hdd0 : d = d0 := Option.some.inj (hdoc.symm.trans hd0)
              have hscv : sc = c := by
                rw [← hdd0] at hc0
                rw [hcv] at hc0
                exact (Val.num.inj (Option.some.inj hc0)).symm
              have hufld : vStr ((fun f => if f = "updatedAt" then some (Val.num now)
                  else value f) fld) = vStr (d fld) := by
                by_contra hne
                apply hR
                rw [changedBuckets]
                refine List.mem_map.mpr ⟨(ln, fld), List.mem_filter.mpr ⟨hlk, ?_⟩, ?_⟩
                · simp only [decide_eq_true_eq]
                  exact fun hc => hne hc.symm
                · show bkt cfg ln (vStr (d fld)) = bkt cfg ln v
                  rw [← hdd0] at hfld
                  rw [hfld]
              refine ⟨(fun f => if f = "updatedAt" then some (Val.num now) else value f),
                ?_, ?_, ?_⟩
              · rw [hdocs i, if_pos rfl]
              · rw [hufld, hdd0]
                exact hfld
              · rw [hUc, hscv]
        · have hzo : zscore ((update cfg {} st value now).2.1.zsets (bkt cfg ln v)) i =
              zscore (st.zsets (bkt cfg ln v)) i := by
            by_cases hR : bkt cfg ln v ∈ changedBuckets cfg d
                (fun f => if f = "updatedAt" then some (Val.num now) else value f)
            · rw [hchar.2.1 _ hR, zscore_zrem_ne _ _ _ hi]
            · by_cases hA : bkt cfg ln v ∈ changedBuckets cfg
                  (fun f => if f = "updatedAt" then some (Val.num now) else value f) d
              · rw [hchar.2.2 _ hA, zscore_zadd_ne _ _ _ _ hi]
              · rw [hchar.1 _ hR hA]
          rw [hzo] at hsc
          obtain ⟨d0, hd0, hfld, hc0⟩ := hinv.memSound i ln fld v sc hlk hsc
          refine ⟨d0, ?_, hfld, hc0⟩
          rw [hdocs i, if_neg hi]
          exact hd0
      · intro i d' ln fld hd' hlive' hlk
        rw [hdocs i] at hd'
        by_cases hi : i = s
        · rw [if_pos hi] at hd'
          have hdU : d' = (fun f => if f = "updatedAt" then some (Val.num now)
              else value f) := (Option.some.inj hd').symm
          subst hdU
          subst hi
          rw [hUc]
          by_cases hch : vStr ((fun f => if f = "updatedAt" then some (Val.num now)
              else value f) fld) = vStr (d fld)
          · have hbR : bkt cfg ln (vStr ((fun f => if f = "updatedAt" then
                some (Val.num now) else value f) fld)) ∉ changedBuckets cfg d
                (fun f => if f = "updatedAt" then some (Val.num now) else value f) := by
              intro hmem
              rw [changedBuckets] at hmem
              obtain ⟨e, he, hek⟩ := List.mem_map.mp hmem
              obtain ⟨hee, hv⟩ := entry_inj cfg hwf (List.mem_of_mem_filter he) hlk hek
              have hcond := List.of_mem_filter he
              simp only [decide_eq_true_eq] at hcond
              subst hee
              exact hcond hch.symm
            have hbA : bkt cfg ln (vStr ((fun f => if f = "updatedAt" then
                some (Val.num now) else value f) fld)) ∉ changedBuckets cfg
                (fun f => if f = "updatedAt" then some (Val.num now) else value f) d := by
              intro hmem
              rw [changedBuckets] at hmem
              obtain ⟨e, he, hek⟩ := List.mem_map.mp hmem
              obtain ⟨hee, hv⟩ := entry_inj cfg hwf (List.mem_of_mem_filter he) hlk hek
              have hcond := List.of_mem_filter he
              simp only [decide_eq_true_eq] at hcond
              subst hee
              exact hcond hch
            rw [hchar.1 _ hbR hbA, hch]
            have hmc := hinv.memComplete i d ln fld hdoc hlive hlk
            rw [hmc, hcv]
          · have hbA : bkt cfg ln (vStr ((fun f => if f = "updatedAt" then
                some (Val.num now) else value f) fld)) ∈ changedBuckets cfg
                (fun f => if f = "updatedAt" then some (Val.num now) else value f) d := by
              rw [changedBuckets]
              refine List.mem_map.mpr ⟨(ln, fld), List.mem_filter.mpr ⟨hlk, ?_⟩, rfl⟩
              simp only [decide_eq_true_eq]
              exact hch
            rw [hchar.2.2 _ hbA, zscore_zadd_self, hscore]
            rfl
        · rw [if_neg hi] at hd'
          have hzo : zscore ((update cfg {} st value now).2.1.zsets
              (bkt cfg ln (vStr (d' fld)))) i =
              zscore (st.zsets (bkt cfg ln (vStr (d' fld)))) i := by
            by_cases hR : bkt cfg ln (vStr (d' fld)) ∈ changedBuckets cfg d
                (fun f => if f = "updatedAt" then some (Val.num now) else value f)
            · rw [hchar.2.1 _ hR, zscore_zrem_ne _ _ _ hi]
            · by_cases hA : bkt cfg ln (vStr (d' fld)) ∈ changedBuckets cfg
                  (fun f => if f = "updatedAt" then some (Val.num now) else value f) d
              · rw [hchar.2.2 _ hA, zscore_zadd_ne _ _ _ _ hi]
              · rw [hchar.1 _ hR hA]
          rw [hzo]
          exact hinv.memComplete i d' ln fld hd' hlive' hlk

theorem inv_init (cfg : Config) : Inv cfg initState := by
  constructor
  · intro i d hd
    cases hd
  · intro i d hd
    cases hd
  · intro i ln fld v sc _ hsc
    cases hsc
  · intro i d ln fld hd _ _
    cases hd

theorem inv_runOps (cfg : Config) (hwf : WFConfig cfg) :
    ∀ (ops : List TOp) (st : RedisState), Inv cfg st → OkRun cfg st ops →
      Inv cfg (runOps cfg ops st) := by
  intro ops
  induction ops with
  | nil =>
    intro st hinv _
    exact hinv
  | cons op rest ih =>
    intro st hinv hok
    obtain ⟨hop, hrest⟩ := hok
    refine ih (applyOp cfg st op) ?_ hrest
    cases op with
    | doCreate v n g => exact inv_create cfg hwf st v n g hop hinv
    | doUpdate v n => exact inv_update cfg hwf st v n hop hinv
    | doDelete i hard n => exact inv_delete cfg hwf st i hard n hop hinv

/-- C1 (amended): over a well-formed configuration (distinct, colon-free
lookup names) and any well-formed sequence of create/update/delete calls
from the empty store (fresh create ids, string ids, positive clocks,
updates preserving `createdAt`), every stored live record's id is a member
of exactly the lookup-index set matching its current looked-up field value
-- with score `createdAt` there, and absent from the set of every other
value of that lookup (no stale memberships). -/
theorem claim1_lookup_invariant (cfg : Config) (hwf : WFConfig cfg) (ops : List TOp)
    (hok : OkRun cfg initState ops) (i : String) (d : Doc) (ln fld : String)
    (hlk : (ln, fld) ∈ cfg.lookups)
    (hd : (runOps cfg ops initState).docs (vk cfg i) = some d)
    (hlive : truthyVal (d "deletedAt") = false) (v : String) :
    zscore ((runOps cfg ops initState).zsets (bkt cfg ln v)) i =
      if v = vStr (d fld) then some (vNum (d "createdAt")) else none := by
  have hinv := inv_runOps cfg hwf ops initState (inv_init cfg) hok
  by_cases hv : v = vStr (d fld)
  · rw [if_pos hv, hv]
    exact hinv.memComplete i d ln fld hd hlive hlk
  · rw [if_neg hv]
    cases hsc : zscore ((runOps cfg ops initState).zsets (bkt cfg ln v)) i with
    | none => rfl
    | some sc =>
      obtain ⟨d0, hd0, hfld, _⟩ := hinv.memSound i ln fld v sc hlk hsc
      have hdd0 : d = d0 := Option.some.inj (hd.symm.trans hd0)
      rw [← hdd0] at hfld
      exact absurd hfld.symm hv

/-- C1, counterexample to the unrestricted claim: two `create` calls with
the same explicit id "X" (allowed by the code, which never checks
freshness), first with category "A" and then with category "B", leave "X"
stored live with current category "B" while its id is still a member of
the stale lookup set `things:cat:A` -- contradicting "a member of exactly
the set matching the current field value, never a set for a stale
value". -/
theorem claim1_counterexample :
    ("cat", "category") ∈ cfgC.lookups ∧
    docField (runOps cfgC [TOp.doCreate wA 1 "g", TOp.doCreate wB 2 "g"] initState)
        (vk cfgC "X") "category" = some (Val.str "B") ∧
    truthyVal (docField (runOps cfgC [TOp.doCreate wA 1 "g", TOp.doCreate wB 2 "g"]
        initState) (vk cfgC "X") "deletedAt") = false ∧
    zscore ((runOps cfgC [TOp.doCreate wA 1 "g", TOp.doCreate wB 2 "g"] initState).zsets
        (bkt cfgC "cat" "A")) "X" = some 1 := by
  decide

theorem claim1_witness :
    zscore ((runOps cfgC [TOp.doCreate wA 1 "g"] initState).zsets (bkt cfgC "cat" "A"))
        "X" =
      if "A" = vStr ((createdValueOf wA 1 "g") "category") then
        some (vNum ((createdValueOf wA 1 "g") "createdAt")) else none :=
  claim1_lookup_invariant cfgC
    ⟨by decide, by
      intro p hp
      simp only [cfgC, List.mem_cons, List.not_mem_nil, or_false] at hp
      subst hp
      decide⟩
    [TOp.doCreate wA 1 "g"]
    ⟨⟨Or.inr ⟨"X", rfl⟩, Or.inr ⟨1, rfl, Nat.one_pos⟩, Nat.one_pos, rfl⟩, trivial⟩
    "X" (createdValueOf wA 1 "g") "cat" "category" (by decide) rfl rfl "A"

end RedisStore
